import Mathlib

/-!
# BytePip file server (`src/server/server.js`): name codec, catalog, type filter, day shards, stats

A shallow embedding of the upload-name codec, the catalog scan of `GET /api/files`, the
download and delete routes, the upload type filter, the day-shard destination and the
stats walk, followed by the theorems that settle the specification's claims about them.

JavaScript strings are sequences of UTF-16 code units, and the regular expressions of the
server (none has the `u` flag) work on code units, so a string is modelled as the list of
its code units.
-/

namespace BytePip

/-! ## Strings -/

/-- A JavaScript string: the list of its UTF-16 code units. -/
abbrev Str := List Nat

/-- The code units of a string literal (a character above U+FFFF is a surrogate pair). -/
def utf16 (s : String) : Str :=
  s.toList.flatMap fun c =>
    if c.toNat < 65536 then [c.toNat]
    else [55296 + (c.toNat - 65536) / 1024, 56320 + (c.toNat - 65536) % 1024]

/-- Digits of `n`, most significant first, pushed in front of `acc` (`fuel` bounds the loop). -/
def decimalAux : Nat → Nat → Str → Str
  | 0, _, acc => acc
  | fuel + 1, n, acc =>
    if n < 10 then (48 + n) :: acc
    else decimalAux fuel (n / 10) ((48 + n % 10) :: acc)

/-- The text a template literal gives a non-negative integer Number below 1e21, as
`Date.now()` is: its decimal digits. -/
def toDecimal (n : Nat) : Str := decimalAux (n + 1) n []

/-- One lowercase hexadecimal digit. -/
def hexDigit (n : Nat) : Nat := if n < 10 then 48 + n else 87 + n

/-- The text of `Buffer.toString('hex')`: two lowercase hex digits per byte. -/
def toHex (bytes : List (Fin 256)) : Str :=
  bytes.flatMap fun b => [hexDigit (b.val / 16), hexDigit (b.val % 16)]

/-! ## Regular expressions

A backtracking matcher for the fragment of JavaScript regular expressions the server uses:
character classes, greedy `+` over a class, capture groups, sequencing, `^` and `$`
(no `m` flag: start and end of input). -/

/-- Class `\d`. -/
def isDigit (c : Nat) : Bool := decide (48 ≤ c) && decide (c ≤ 57)

/-- Class `[a-f0-9]`. -/
def isLowerHex (c : Nat) : Bool := (decide (97 ≤ c) && decide (c ≤ 102)) || isDigit c

/-- Class `.` without the `s` flag: any code unit but the line terminators. -/
def isDot (c : Nat) : Bool := !(c == 10 || c == 13 || c == 8232 || c == 8233)

/-- The literal `_`. -/
def isUnderscore (c : Nat) : Bool := c == 95

/-- Regular-expression syntax. -/
inductive Re where
  | bol
  | eol
  | cls (p : Nat → Bool)
  | plus (p : Nat → Bool)
  | group (r : Re)
  | seq (a b : Re)

/-- Greedy `p+`: consume as many code units of the class as possible, then give back one
at a time until the continuation succeeds. -/
def plusLoop {α : Type} (p : Nat → Bool) (k : Str → Option α) : Str → Option α
  | [] => none
  | c :: s =>
    if p c then
      match plusLoop p k s with
      | some r => some r
      | none => k s
    else none

/-- Match `r` at the head of `s` (`total` is the length of the whole input), then run the
continuation on the rest; captures are collected in order. -/
def matchRe (total : Nat) : Re → Str → List Str → (Str → List Str → Option (List Str)) →
    Option (List Str)
  | .bol, s, caps, k => if s.length = total then k s caps else none
  | .eol, s, caps, k => if s.isEmpty then k s caps else none
  | .cls p, s, caps, k =>
    match s with
    | [] => none
    | c :: t => if p c then k t caps else none
  | .plus p, s, caps, k => plusLoop p (fun t => k t caps) s
  | .group r, s, caps, k =>
    matchRe total r s caps (fun t caps1 => k t (caps1 ++ [s.take (s.length - t.length)]))
  | .seq a b, s, caps, k => matchRe total a s caps (fun t caps1 => matchRe total b t caps1 k)

/-- Try the start positions from left to right. -/
def execAt (re : Re) (total : Nat) : Str → Option (List Str)
  | [] => matchRe total re [] [] (fun _ caps => some caps)
  | c :: t =>
    match matchRe total re (c :: t) [] (fun _ caps => some caps) with
    | some caps => some caps
    | none => execAt re total t

/-- The capture groups of `input.match(re)` for a regex without the `g` flag, `none` when
there is no match. -/
def regexMatch (re : Re) (input : Str) : Option (List Str) := execAt re input.length input

/-- The catalog pattern `/^(\d+)_[a-f0-9]+_(.+)$/` of `scanDir`. -/
def catalogPattern : Re :=
  .seq .bol (.seq (.group (.plus isDigit)) (.seq (.cls isUnderscore) (.seq (.plus isLowerHex)
    (.seq (.cls isUnderscore) (.seq (.group (.plus isDot)) .eol)))))

/-- The download pattern `/^\d+_[a-f0-9]+_(.+)$/` of the download route. -/
def downloadPattern : Re :=
  .seq .bol (.seq (.plus isDigit) (.seq (.cls isUnderscore) (.seq (.plus isLowerHex)
    (.seq (.cls isUnderscore) (.seq (.group (.plus isDot)) .eol)))))

/-! ## `parseInt` and `Array.prototype.slice` -/

/-- White space and line terminators skipped by `parseInt`. -/
def isWhiteSpace (c : Nat) : Bool :=
  c == 9 || c == 10 || c == 11 || c == 12 || c == 13 || c == 32 || c == 160 || c == 5760 ||
  (decide (8192 ≤ c) && decide (c ≤ 8202)) || c == 8232 || c == 8233 || c == 8239 ||
  c == 8287 || c == 12288 || c == 65279

/-- Value of a code unit as a digit in some radix up to 36. -/
def digitValue (c : Nat) : Option Nat :=
  if 48 ≤ c ∧ c ≤ 57 then some (c - 48)
  else if 97 ≤ c ∧ c ≤ 122 then some (c - 87)
  else if 65 ≤ c ∧ c ≤ 90 then some (c - 55)
  else none

/-- Whether the code unit is a digit of the radix. -/
def isRadixDigit (radix c : Nat) : Bool :=
  match digitValue c with
  | some v => decide (v < radix)
  | none => false

/-- Value of a run of digits of the radix. -/
def digitsValue (radix : Nat) (s : Str) : Nat :=
  s.foldl (fun acc c => radix * acc + (digitValue c).getD 0) 0

/-- The sign `parseInt` reads, and the text after it. -/
def stripSign (s : Str) : Int × Str :=
  match s with
  | 45 :: t => (-1, t)
  | 43 :: t => (1, t)
  | _ => (1, s)

/-- The radix `parseInt` settles on when none is given (16 after `0x` or `0X`, else 10),
and the text after the prefix. -/
def stripRadixPrefix (s : Str) : Nat × Str :=
  match s with
  | 48 :: 120 :: t => (16, t)
  | 48 :: 88 :: t => (16, t)
  | _ => (10, s)

/-- `parseInt(s)` with no radix argument; `none` is `NaN`. The Number is taken as the exact
integer. JavaScript agrees for every digit run whose value is below 2^53, which covers the
timestamps `Date.now()` yields and the `limit` values; above 2^53 JavaScript rounds to a
nearby double, which this definition does not model. -/
def parseInt (s : Str) : Option Int :=
  let signed := stripSign (s.dropWhile isWhiteSpace)
  let based := stripRadixPrefix signed.2
  let z := based.2.takeWhile (isRadixDigit based.1)
  if z.isEmpty then none else some (signed.1 * (digitsValue based.1 z : Int))

/-- `xs.slice(0, end)`, where `none` is an `end` of `NaN`. -/
def slice0 {α : Type} (xs : List α) (stop : Option Int) : List α :=
  match stop with
  | none => []
  | some e => if e < 0 then xs.take (xs.length - e.natAbs) else xs.take e.toNat

/-! ## Upload names: `storage.filename` -/

/-- The class `[a-zA-Z0-9一-龥.]` whose complement the upload name replaces. -/
def isSafeChar (c : Nat) : Bool :=
  (decide (97 ≤ c) && decide (c ≤ 122)) || (decide (65 ≤ c) && decide (c ≤ 90)) ||
  (decide (48 ≤ c) && decide (c ≤ 57)) || (decide (19968 ≤ c) && decide (c ≤ 40869)) || c == 46

/-- `originalname.replace(/[^a-zA-Z0-9一-龥.]/g, '_')`. -/
def safeName (originalname : Str) : Str :=
  originalname.map fun c => if isSafeChar c then c else 95

/-- The name `storage.filename` hands to multer, for `Date.now()` equal to `timestamp` and
`crypto.randomBytes` returning `random`: the template `timestamp_random_safeName`. -/
def filename (originalname : Str) (timestamp : Nat) (random : List (Fin 256)) : Str :=
  toDecimal timestamp ++ [95] ++ toHex random ++ [95] ++ safeName originalname

/-! ## Upload type filter: `upload.fileFilter` -/

/-- Loop variables of `path.extname` (POSIX). -/
structure ExtState where
  startDot : Int
  startPart : Int
  stop : Int
  matchedSlash : Bool
  preDotState : Int

/-- The backwards scan of `path.extname`: the first argument is `i + 1` for loop index `i`. -/
def extnameLoop (path : Str) : Nat → ExtState → ExtState
  | 0, st => st
  | i + 1, st =>
    let code := path.getD i 0
    if code = 47 then
      if !st.matchedSlash then { st with startPart := (i : Int) + 1 }
      else extnameLoop path i st
    else
      let st1 := if st.stop = -1 then { st with matchedSlash := false, stop := (i : Int) + 1 }
        else st
      let st2 :=
        if code = 46 then
          if st1.startDot = -1 then { st1 with startDot := (i : Int) }
          else if st1.preDotState ≠ 1 then { st1 with preDotState := 1 }
          else st1
        else if st1.startDot ≠ -1 then { st1 with preDotState := -1 }
        else st1
      extnameLoop path i st2

/-- `path.extname(p)` of Node (POSIX): from the last dot of the last path component, empty
when there is no dot, or the component starts with its only dot, or is `..`. -/
def extname (path : Str) : Str :=
  let st := extnameLoop path path.length ⟨-1, 0, -1, true, 0⟩
  if st.startDot = -1 ∨ st.stop = -1 ∨ st.preDotState = 0 ∨
      (st.preDotState = 1 ∧ st.startDot = st.stop - 1 ∧ st.startDot = st.startPart + 1) then []
  else (path.take st.stop.toNat).drop st.startDot.toNat

/-- Lowercasing of the letters A-Z, the part of `String.prototype.toLowerCase` that acts on
ASCII text. -/
def asciiLower (s : Str) : Str := s.map fun c => if 65 ≤ c ∧ c ≤ 90 then c + 32 else c

/-- The decision of `upload.fileFilter` for `config.allowTypes` and the uploaded file's
`originalname`: `true` is `cb(null, true)`, `false` the unsupported-type error.
`toLowerCase` is `String.prototype.toLowerCase`. -/
def fileFilter (toLowerCase : Str → Str) (allowTypes : List Str) (originalname : Str) : Bool :=
  if allowTypes.head? ≠ some [42] then
    let ext := toLowerCase (extname originalname)
    if ¬ ext ∈ allowTypes then false else true
  else true

/-! ## Day shards: `storage.destination` -/

/-- Milliseconds per day. -/
def msPerDay : Nat := 86400000

/-- Day number of a time value (ECMAScript `Day`). -/
def Day (t : Nat) : Nat := t / msPerDay

/-- Number of the first day of year `y` (ECMAScript `DayFromYear`), for `y ≥ 1970`. -/
def DayFromYear (y : Nat) : Nat :=
  365 * (y - 1970) + (y - 1969) / 4 - (y - 1901) / 100 + (y - 1601) / 400

/-- Search upwards for the last year that starts on or before day `d`. -/
def yearLoop (d : Nat) : Nat → Nat → Nat
  | 0, y => y
  | fuel + 1, y => if DayFromYear (y + 1) ≤ d then yearLoop d fuel (y + 1) else y

/-- Year of a time value (ECMAScript `YearFromTime`), for times since the epoch. -/
def YearFromTime (t : Nat) : Nat := yearLoop (Day t) (Day t) 1970

/-- Whether the year is a leap year (ECMAScript `DaysInYear` is 366). -/
def isLeapYear (y : Nat) : Bool :=
  if y % 4 ≠ 0 then false else if y % 100 ≠ 0 then true else if y % 400 ≠ 0 then false else true

/-- Day within the year, from 0 (ECMAScript `DayWithinYear`). -/
def DayWithinYear (t : Nat) : Nat := Day t - DayFromYear (YearFromTime t)

/-- Month number 0..11 (ECMAScript `MonthFromTime`). -/
def MonthFromTime (t : Nat) : Nat :=
  let d := DayWithinYear t
  let l := if isLeapYear (YearFromTime t) then 1 else 0
  if d < 31 then 0 else if d < 59 + l then 1 else if d < 90 + l then 2
  else if d < 120 + l then 3 else if d < 151 + l then 4 else if d < 181 + l then 5
  else if d < 212 + l then 6 else if d < 243 + l then 7 else if d < 273 + l then 8
  else if d < 304 + l then 9 else if d < 334 + l then 10 else 11

/-- Day of the month 1..31 (ECMAScript `DateFromTime`). -/
def DateFromTime (t : Nat) : Nat :=
  let d := DayWithinYear t
  let l := if isLeapYear (YearFromTime t) then 1 else 0
  match MonthFromTime t with
  | 0 => d + 1
  | 1 => d - 30
  | 2 => d - 58 - l
  | 3 => d - 89 - l
  | 4 => d - 119 - l
  | 5 => d - 150 - l
  | 6 => d - 180 - l
  | 7 => d - 211 - l
  | 8 => d - 242 - l
  | 9 => d - 272 - l
  | 10 => d - 303 - l
  | _ => d - 333 - l

/-- Decimal text padded with zeros on the left to at least `width` digits. -/
def padStart (width n : Nat) : Str :=
  List.replicate (width - (toDecimal n).length) 48 ++ toDecimal n

/-- The year of `toISOString`: four digits up to 9999, else a sign and six digits. -/
def isoYear (y : Nat) : Str := if y ≤ 9999 then padStart 4 y else 43 :: padStart 6 y

/-- The text `YYYY-MM-DD` of a year, a month 1..12 and a day of the month. -/
def dateString (y m d : Nat) : Str := isoYear y ++ [45] ++ padStart 2 m ++ [45] ++ padStart 2 d

/-- The text of `new Date(t).toISOString()` for a time since the epoch: the UTC date, `T`,
the UTC time of day and `Z`. -/
def toISOString (t : Nat) : Str :=
  dateString (YearFromTime t) (MonthFromTime t + 1) (DateFromTime t) ++ [84] ++
    padStart 2 (t / 3600000 % 24) ++ [58] ++ padStart 2 (t / 60000 % 60) ++ [58] ++
    padStart 2 (t / 1000 % 60) ++ [46] ++ padStart 3 (t % 1000) ++ [90]

/-- The pieces of `s.split(sep)` for a one-character separator. -/
def splitOn (sep : Nat) : Str → List Str
  | [] => [[]]
  | c :: t =>
    if c = sep then [] :: splitOn sep t
    else
      match splitOn sep t with
      | seg :: rest => (c :: seg) :: rest
      | [] => [[c]]

/-- The `YYYY-MM-DD` text of the local calendar date at instant `t` on a host whose local
time is `offset` milliseconds ahead of UTC (`getFullYear`, `getMonth() + 1`, `getDate`). -/
def localDateString (t : Nat) (offset : Int) : Str :=
  let lt := ((t : Int) + offset).toNat
  dateString (YearFromTime lt) (MonthFromTime lt + 1) (DateFromTime lt)

/-! ## File system and paths -/

/-- What `fs.statSync` reports of a directory entry, with the entries of a directory in
the order `fs.readdirSync` lists them. `other` is an entry that is neither a regular file
nor a directory (socket, FIFO, device). For a name `item` listed in `dir`,
`statSync(path.join(dir, item))` is the node stored with that name. A dangling symbolic
link, on which `statSync` throws, is not part of a tree. -/
inductive FsNode where
  | file (size : Nat) (mtimeMs : ℚ)
  | dir (entries : List (Str × FsNode))
  | other

/-- The entry of a directory with the given name. -/
def FsNode.child (n : FsNode) (name : Str) : Option FsNode :=
  match n with
  | .dir entries => (entries.find? fun e => e.1 == name).map Prod.snd
  | _ => none

/-- The node an absolute path (its segments) leads to, from the file-system root `fs`. -/
def resolve (fs : FsNode) : List Str → Option FsNode
  | [] => some fs
  | seg :: rest =>
    match fs.child seg with
    | some n => resolve n rest
    | none => none

/-- Whether `statSync(...).isDirectory()`. -/
def FsNode.isDirectory : FsNode → Bool
  | .dir _ => true
  | _ => false

/-- Segment-wise normalisation of an absolute POSIX path (`normalizeString` of Node):
empty segments and `.` are dropped, `..` removes the segment before it and is dropped at
the root. `acc` holds the segments resolved so far. -/
def normalizeSegs (acc : List Str) : List Str → List Str
  | [] => acc
  | seg :: rest =>
    if seg = [] ∨ seg = [46] then normalizeSegs acc rest
    else if seg = [46, 46] then normalizeSegs acc.dropLast rest
    else normalizeSegs (acc ++ [seg]) rest

/-- An absolute normalised path: its segments, and whether its text ends with `/` (such a
path names a directory only). -/
structure FilePath where
  segs : List Str
  trailingSlash : Bool
deriving DecidableEq

/-- Whether the text `path.join` glues from the parts ends with `/`: the last non-empty
part does. -/
def endsWithSlash (parts : List Str) : Bool :=
  match (parts.filter fun p => !p.isEmpty).getLast? with
  | some p => p.getLast? == some 47
  | none => false

/-- The path `path.join(base, ...parts)` for an absolute, normalised `base` without a
trailing slash, given by its segments: the parts are split at `/` and resolved onto the
base, and a trailing `/` of the joined text is kept. -/
def pathJoin (base : List Str) (parts : List Str) : FilePath :=
  { segs := normalizeSegs base (parts.flatMap (splitOn 47))
    trailingSlash := endsWithSlash parts }

/-- The node a path leads to: the node at its segments, unless the path ends with `/` and
that node is not a directory (the system call fails with `ENOTDIR`). `fs.existsSync` is
whether there is such a node. -/
def lookup (fs : FsNode) (p : FilePath) : Option FsNode :=
  match resolve fs p.segs with
  | some n => if p.trailingSlash && !n.isDirectory then none else some n
  | none => none

/-- The directory `storage.destination` selects when `new Date()` is the instant `now`:
`path.join(UPLOAD_DIR, new Date().toISOString().split('T')[0])`, as path segments. (The
directory is created when absent; that effect is not part of the result.) -/
def destination (uploadDir : List Str) (now : Nat) : FilePath :=
  pathJoin uploadDir [(splitOn 84 (toISOString now)).headD []]

/-- Length of the longest common prefix. -/
def commonPrefixLen : List Str → List Str → Nat
  | a :: s, b :: t => if a = b then commonPrefixLen s t + 1 else 0
  | _, _ => 0

/-- The segments of `path.relative(src, dst)` for absolute normalised paths. -/
def pathRelative (src dst : List Str) : List Str :=
  List.replicate (src.length - commonPrefixLen src dst) [46, 46] ++
    dst.drop (commonPrefixLen src dst)

/-! ## Catalog: `GET /api/files` -/

/-- A record of the file list (`id`, `sizeStr` and `timeStr` are renderings of `path`,
`size` and `time` and are left out). -/
structure FileInfo where
  name : Str
  savedName : Str
  size : Nat
  path : List Str
  time : ℚ
deriving DecidableEq

/-- The name and time `scanDir` decodes from the entry name `item` of a regular file with
modify-time `mtimeMs`. Group 1 is a run of digits, on which `parseInt` is never `NaN`. -/
def decodeItem (item : Str) (mtimeMs : ℚ) : Str × ℚ :=
  match regexMatch catalogPattern item with
  | some caps => (caps.getD 1 [], (((parseInt (caps.getD 0 [])).getD 0 : Int) : ℚ))
  | none => (item, mtimeMs)

/-- The `forEach` of `scanDir` over the entries of `dir`, pushing onto `fileList`
(`path.relative` takes no notice of a trailing slash). -/
def scanItems (uploadDir dir : List Str) : List (Str × FsNode) → List FileInfo → List FileInfo
  | [], fileList => fileList
  | (item, node) :: rest, fileList =>
    let fullPath := pathJoin dir [item]
    match node with
    | .file size mtimeMs =>
      scanItems uploadDir dir rest (fileList ++ [{
        name := (decodeItem item mtimeMs).1
        savedName := item
        size := size
        path := pathRelative uploadDir fullPath.segs
        time := (decodeItem item mtimeMs).2 }])
    | _ => scanItems uploadDir dir rest fileList

/-- The `scanDir(dir)` of the file list: nothing when `dir` does not exist, `none` when
`readdirSync` throws because `dir` is not a directory. -/
def scanDir (uploadDir : List Str) (fs : FsNode) (dir : FilePath) (fileList : List FileInfo) :
    Option (List FileInfo) :=
  match lookup fs dir with
  | none => some fileList
  | some (.dir entries) => some (scanItems uploadDir dir.segs entries fileList)
  | some _ => none

/-- Order of strings by code units, the order of `Array.prototype.sort()` without a
comparator. -/
def strLe : Str → Str → Bool
  | [], _ => true
  | _ :: _, [] => false
  | a :: s, b :: t => decide (a < b) || (a == b && strLe s t)

/-- The day-shard names in the order they are scanned: the directories under the upload
root, sorted and reversed. -/
def shardDirs (entries : List (Str × FsNode)) : List Str :=
  (List.insertionSort (fun a b => strLe a b = true)
    ((entries.filter fun e => e.2.isDirectory).map Prod.fst)).reverse

/-- Scan the given directories under the upload root in turn. -/
def scanDirs (uploadDir : List Str) (fs : FsNode) : List Str → List FileInfo →
    Option (List FileInfo)
  | [], fileList => some fileList
  | d :: rest, fileList =>
    match scanDir uploadDir fs (pathJoin uploadDir [d]) fileList with
    | some fl => scanDirs uploadDir fs rest fl
    | none => none

/-- The `fileList` of `GET /api/files` before it is sorted: one shard when the `date` query
is present and non-empty, all shards otherwise; `none` when a file-system call throws. -/
def collectFiles (uploadDir : List Str) (fs : FsNode) (date : Option Str) :
    Option (List FileInfo) :=
  match date with
  | some (c :: d) => scanDir uploadDir fs (pathJoin uploadDir [c :: d]) []
  | _ =>
    match resolve fs uploadDir with
    | some (.dir entries) => scanDirs uploadDir fs (shardDirs entries) []
    | _ => none

/-- The comparator `(a, b) => b.time - a.time`. -/
def compareTime (a b : FileInfo) : ℚ := b.time - a.time

/-- `fileList.sort(compareTime)`: a stable sort that puts `a` before `b` when the comparator
is negative. -/
def sortByTime (fileList : List FileInfo) : List FileInfo :=
  List.insertionSort (fun a b => compareTime a b ≤ 0) fileList

/-- The body of the response of `GET /api/files`. -/
structure FilesResponse where
  total : Nat
  returned : Nat
  files : List FileInfo
deriving DecidableEq

/-- The handler of `GET /api/files` for the query values `date` and `limit` (`limit`
defaults to the number 50); `none` when a file-system call throws. -/
def getFiles (uploadDir : List Str) (fs : FsNode) (date limit : Option Str) :
    Option FilesResponse :=
  match collectFiles uploadDir fs date with
  | none => none
  | some fileList =>
    let sorted := sortByTime fileList
    let limitedList := slice0 sorted (parseInt (limit.getD (toDecimal 50)))
    some { total := sorted.length, returned := limitedList.length, files := limitedList }

/-! ## Download and delete -/

/-- A file-system call of a handler, with the path it is made on. -/
inductive FsOp where
  | existsSync (path : FilePath)
  | readdirSync (path : FilePath)
  | statSync (path : FilePath)
  | sendFile (path : FilePath)
  | unlinkSync (path : FilePath)
deriving DecidableEq

/-- The path a file-system call is made on. -/
def FsOp.path : FsOp → FilePath
  | .existsSync p => p
  | .readdirSync p => p
  | .statSync p => p
  | .sendFile p => p
  | .unlinkSync p => p

/-- The file-system calls `scanDir(dir)` of the file list makes, in order: `existsSync`,
then `readdirSync`, then `statSync` on `path.join(dir, item)` for each listed name. -/
def scanDirCalls (fs : FsNode) (dir : FilePath) : List FsOp :=
  match lookup fs dir with
  | none => [.existsSync dir]
  | some (.dir entries) =>
    .existsSync dir :: .readdirSync dir ::
      entries.map fun e => .statSync (pathJoin dir.segs [e.1])
  | some _ => [.existsSync dir, .readdirSync dir]

/-- The calls of scanning the given shard names in turn; the scan ends where `readdirSync`
throws. -/
def scanDirsCalls (uploadDir : List Str) (fs : FsNode) : List Str → List FsOp
  | [] => []
  | d :: rest =>
    scanDirCalls fs (pathJoin uploadDir [d]) ++
      match lookup fs (pathJoin uploadDir [d]) with
      | some (.file _ _) => []
      | some .other => []
      | _ => scanDirsCalls uploadDir fs rest

/-- The file-system calls the handler of `GET /api/files` makes, in order: those of
`scanDir` on the one shard when the `date` query is present and non-empty; otherwise
`readdirSync` on the root, `statSync` on each name listed there, and the calls of `scanDir`
on each shard directory. -/
def getFilesCalls (uploadDir : List Str) (fs : FsNode) (date : Option Str) : List FsOp :=
  match date with
  | some (c :: d) => scanDirCalls fs (pathJoin uploadDir [c :: d])
  | _ =>
    match resolve fs uploadDir with
    | some (.dir entries) =>
      .readdirSync ⟨uploadDir, false⟩ ::
        (entries.map fun e => .statSync (pathJoin uploadDir [e.1])) ++
          scanDirsCalls uploadDir fs (shardDirs entries)
    | _ => [.readdirSync ⟨uploadDir, false⟩]

/-- The answers of the download and delete routes. -/
inductive Response where
  | notFound
  | download (filePath : FilePath) (downloadName : Str)
  | deleted
  | deleteFailed
deriving DecidableEq

/-- The name the download route offers the file under: group 1 of the download pattern,
or the stored name itself when the pattern does not match. -/
def downloadName (filename : Str) : Str :=
  match regexMatch downloadPattern filename with
  | some caps => caps.getD 0 []
  | none => filename

/-- The handler of `GET /api/download/:date/:filename`: the file-system calls it makes, in
order, and its answer. -/
def download (uploadDir : List Str) (fs : FsNode) (date filename : Str) :
    List FsOp × Response :=
  let filePath := pathJoin uploadDir [date, filename]
  if (lookup fs filePath).isNone then ([.existsSync filePath], .notFound)
  else ([.existsSync filePath, .sendFile filePath], .download filePath (downloadName filename))

/-- The handler of `DELETE /api/files/:date/:filename`: the file-system calls it makes and
its answer (`unlinkSync` throws on a directory). -/
def deleteFile (uploadDir : List Str) (fs : FsNode) (date filename : Str) :
    List FsOp × Response :=
  let filePath := pathJoin uploadDir [date, filename]
  match lookup fs filePath with
  | none => ([.existsSync filePath], .notFound)
  | some (.dir _) => ([.existsSync filePath, .unlinkSync filePath], .deleteFailed)
  | some _ => ([.existsSync filePath, .unlinkSync filePath], .deleted)

/-! ## Stats: `GET /api/stats` -/

/-- The counters of the stats walk. -/
structure Stats where
  totalFiles : Nat
  totalSize : Nat
deriving DecidableEq

mutual
/-- The body of the `forEach` callback of the stats `scanDir` for one entry. -/
def statsItem : FsNode → Stats → Stats
  | .file size _, st => { totalFiles := st.totalFiles + 1, totalSize := st.totalSize + size }
  | .dir entries, st => statsItems entries st
  | .other, st => st
/-- The `forEach` of the stats `scanDir` over the entries of a directory. -/
def statsItems : List (Str × FsNode) → Stats → Stats
  | [], st => st
  | (_, node) :: rest, st => statsItems rest (statsItem node st)
end

/-- The totals of `GET /api/stats`: `scanDir(UPLOAD_DIR)` from zero counters; `none` when
`readdirSync` throws because the root is not a directory. -/
def getStats (uploadDir : List Str) (fs : FsNode) : Option Stats :=
  match resolve fs uploadDir with
  | none => some ⟨0, 0⟩
  | some (.dir entries) => some (statsItems entries ⟨0, 0⟩)
  | some _ => none

/-! ## Auxiliary definitions for the statements

The record of one entry, the files of a tree as the specification counts them, and the
example file systems the concrete statements are evaluated on. -/

/-- The record `scanDir` pushes for one entry, if it is a regular file. -/
def itemRecord (uploadDir dir : List Str) (e : Str × FsNode) : Option FileInfo :=
  match e.2 with
  | .file size mtimeMs =>
    some {
      name := (decodeItem e.1 mtimeMs).1
      savedName := e.1
      size := size
      path := pathRelative uploadDir (pathJoin dir [e.1]).segs
      time := (decodeItem e.1 mtimeMs).2 }
  | _ => none

/-- A name a directory can hold: not empty, without `/`, and neither `.` nor `..`. -/
def validName (s : Str) : Prop := s ≠ [] ∧ (47 : Nat) ∉ s ∧ s ≠ [46] ∧ s ≠ [46, 46]

/-- Whether a name is valid can be computed. -/
instance validName_decidable (s : Str) : Decidable (validName s) := by
  unfold validName
  infer_instance

/-- The records of the day shard named `d` under the storage root: the record of every
regular file directly in that directory. -/
def shardRecordsOf (uploadDir : List Str) (entries : List (Str × FsNode)) (d : Str) :
    List FileInfo :=
  match (FsNode.dir entries).child d with
  | some (.dir files) => files.filterMap (itemRecord uploadDir (uploadDir ++ [d]))
  | _ => []

/-- The records of the whole catalog, as the specification counts them: for every
directory directly under the storage root, in the order of the listing, the record of
every regular file directly in it. -/
def shardRecords (uploadDir : List Str) (entries : List (Str × FsNode)) : List FileInfo :=
  entries.flatMap fun e =>
    match e.2 with
    | .dir files => files.filterMap (itemRecord uploadDir (uploadDir ++ [e.1]))
    | _ => []

/-- A catalog of two day shards whose newest file is in the older shard. -/
def twoShardFs : FsNode :=
  .dir [(utf16 "srv", .dir [(utf16 "uploads", .dir [
    (utf16 "2024-01-01", .dir [
      (utf16 "1704067200000_a1b2c3d4_report.pdf", .file 2000000 1704067200123),
      (utf16 "1704200000000_0badcafe_late.txt", .file 3 1704200000000)]),
    (utf16 "readme.txt", .file 12 5),
    (utf16 "2024-01-02", .dir [
      (utf16 "1704153600000_00ff00ff_b.txt", .file 7 1704153600000),
      (utf16 "nested", .dir [(utf16 "x.txt", .file 1 1)])])])])]

/-- The entries of the storage root of `twoShardFs`. -/
def twoShardEntries : List (Str × FsNode) :=
  [(utf16 "2024-01-01", .dir [
      (utf16 "1704067200000_a1b2c3d4_report.pdf", .file 2000000 1704067200123),
      (utf16 "1704200000000_0badcafe_late.txt", .file 3 1704200000000)]),
    (utf16 "readme.txt", .file 12 5),
    (utf16 "2024-01-02", .dir [
      (utf16 "1704153600000_00ff00ff_b.txt", .file 7 1704153600000),
      (utf16 "nested", .dir [(utf16 "x.txt", .file 1 1)])])]

mutual
/-- The sizes of the regular files in a tree, at any depth. -/
def regularFileSizes : FsNode → List Nat
  | .file size _ => [size]
  | .dir entries => regularFileSizesOfEntries entries
  | .other => []
/-- The sizes of the regular files below the entries of a directory, at any depth. -/
def regularFileSizesOfEntries : List (Str × FsNode) → List Nat
  | [] => []
  | (_, node) :: rest => regularFileSizes node ++ regularFileSizesOfEntries rest
end

/-- A catalog of two files in one day shard. -/
def twoFileFs : FsNode :=
  .dir [(utf16 "srv", .dir [(utf16 "uploads", .dir [(utf16 "2024-01-01", .dir [
    (utf16 "1704067200000_a1b2c3d4_report.pdf", .file 2000000 1704067200123),
    (utf16 "1704067200500_00ff00ff_b.txt", .file 7 1704067200600)])])])]

/-- The upload root of the example catalogs. -/
def srvUploads : List Str := [utf16 "srv", utf16 "uploads"]

/-- A directory with a matching and a non-matching file name. -/
def mixedDir : List (Str × FsNode) :=
  [(utf16 "1704067200000_a1b2c3d4_report.pdf", .file 2000000 1704067200123),
    (utf16 "notes.txt", .file 10 (3407 / 2))]

/-- A tree with a file nested two directories below a day shard. -/
def nestedFs : FsNode :=
  .dir [(utf16 "srv", .dir [(utf16 "uploads", .dir [
    (utf16 "2024-01-01", .dir [
      (utf16 "a.txt", .file 10 1),
      (utf16 "sub", .dir [(utf16 "deep", .dir [(utf16 "b.bin", .file 32 2)]),
        (utf16 "pipe", .other)])]),
    (utf16 "stray.log", .file 5 3)])])]

/-- A catalog next to the server's own source file. -/
def serverFs : FsNode :=
  .dir [(utf16 "srv", .dir [
    (utf16 "server.js", .file 9000 5),
    (utf16 "uploads", .dir [(utf16 "2024-01-01", .dir [
      (utf16 "1704067200000_a1b2c3d4_report.pdf", .file 2000000 1704067200123)])])])]

/-- A catalog of 51 files in one day shard. -/
def manyFilesFs : FsNode :=
  .dir [(utf16 "srv", .dir [(utf16 "uploads", .dir [(utf16 "2024-01-01",
    .dir ((List.range 51).map fun i => (102 :: toDecimal i, .file 1 (i : ℚ))))])])]

/-! ## The calendar, as the specification's words count it -/

/-- Days of a year of the Gregorian calendar. -/
def daysInYear (y : Nat) : Nat := if isLeapYear y then 366 else 365

/-- Days of month `m` (0 is January) of year `y`. -/
def daysInMonth (y m : Nat) : Nat :=
  match m with
  | 1 => if isLeapYear y then 29 else 28
  | 3 => 30
  | 5 => 30
  | 8 => 30
  | 10 => 30
  | _ => 31

/-- Number of days from 1 January 1970 to day `d` of month `m` (0 is January) of year `y`,
counted year by year and month by month. -/
def civilDay (y m d : Nat) : Nat :=
  ((List.range (y - 1970)).map fun i => daysInYear (1970 + i)).sum +
    ((List.range m).map (daysInMonth y)).sum + (d - 1)

/-! ## Lemmas: decimal and hexadecimal text -/

theorem isDigit_iff (c : Nat) : isDigit c = true ↔ 48 ≤ c ∧ c ≤ 57 := by
  simp [isDigit]

theorem decimalAux_digits (fuel : Nat) : ∀ (n : Nat) (acc : Str),
    (∀ c ∈ acc, isDigit c = true) → ∀ c ∈ decimalAux fuel n acc, isDigit c = true := by
  induction fuel with
  | zero => intro n acc h; simpa [decimalAux] using h
  | succ f ih =>
    intro n acc h
    unfold decimalAux
    split
    · intro c hc
      rcases List.mem_cons.1 hc with rfl | hc
      · rw [isDigit_iff]; omega
      · exact h c hc
    · apply ih
      intro c hc
      rcases List.mem_cons.1 hc with rfl | hc
      · rw [isDigit_iff]; omega
      · exact h c hc

theorem decimalAux_ne_nil (fuel n : Nat) (acc : Str) : decimalAux (fuel + 1) n acc ≠ [] := by
  induction fuel generalizing n acc with
  | zero =>
    unfold decimalAux
    split
    · simp
    · simp [decimalAux]
  | succ f ih =>
    unfold decimalAux
    split
    · simp
    · exact ih _ _

theorem toDecimal_digits (n : Nat) : ∀ c ∈ toDecimal n, isDigit c = true :=
  decimalAux_digits _ _ _ (by simp)

theorem toDecimal_ne_nil (n : Nat) : toDecimal n ≠ [] := decimalAux_ne_nil _ _ _

theorem digitValue_digit (v : Nat) (h : v < 10) : digitValue (48 + v) = some v := by
  unfold digitValue
  rw [if_pos (by omega)]
  congr 1
  omega

theorem foldl_decimalAux (fuel : Nat) : ∀ (n : Nat) (acc : Str), n < fuel →
    List.foldl (fun a c => 10 * a + (digitValue c).getD 0) 0 (decimalAux fuel n acc) =
      List.foldl (fun a c => 10 * a + (digitValue c).getD 0) n acc := by
  induction fuel with
  | zero => intro n acc h; omega
  | succ f ih =>
    intro n acc h
    unfold decimalAux
    split
    · rename_i h10
      simp [List.foldl_cons, digitValue_digit n h10]
    · rename_i h10
      rw [ih (n / 10) _ (by omega)]
      simp only [List.foldl_cons]
      rw [digitValue_digit (n % 10) (by omega)]
      congr 1
      simp only [Option.getD_some]
      omega

theorem digitsValue_toDecimal (n : Nat) : digitsValue 10 (toDecimal n) = n := by
  unfold digitsValue toDecimal
  rw [foldl_decimalAux (n + 1) n [] (by omega)]
  rfl

theorem isRadixDigit_of_isDigit (c : Nat) (h : isDigit c = true) : isRadixDigit 10 c = true := by
  rw [isDigit_iff] at h
  obtain ⟨v, rfl⟩ : ∃ v, c = 48 + v := ⟨c - 48, by omega⟩
  unfold isRadixDigit
  rw [digitValue_digit v (by omega)]
  simp
  omega

theorem not_isWhiteSpace_of_isDigit (c : Nat) (h : isDigit c = true) : isWhiteSpace c = false := by
  rw [isDigit_iff] at h
  unfold isWhiteSpace
  simp
  omega

/-- On a non-empty run of decimal digits `parseInt` is the value of the run, never `NaN`. -/
theorem parseInt_digits (s : Str) (hne : s ≠ []) (hd : ∀ c ∈ s, isDigit c = true) :
    parseInt s = some (digitsValue 10 s : Int) := by
  obtain ⟨c, t, rfl⟩ := List.exists_cons_of_ne_nil hne
  have hc := hd c (by simp)
  have hc2 := (isDigit_iff c).1 hc
  have h1 : List.dropWhile isWhiteSpace (c :: t) = c :: t := by
    simp [List.dropWhile, not_isWhiteSpace_of_isDigit c hc]
  have htw : List.takeWhile (isRadixDigit 10) (c :: t) = c :: t := by
    rw [List.takeWhile_eq_self_iff]
    intro x hx
    exact isRadixDigit_of_isDigit x (hd x hx)
  have hs : stripSign (c :: t) = (1, c :: t) := by
    unfold stripSign
    split
    · rename_i heq; simp at heq; omega
    · rename_i heq; simp at heq; omega
    · rfl
  have hr : stripRadixPrefix (c :: t) = (10, c :: t) := by
    unfold stripRadixPrefix
    split
    · rename_i heq
      simp at heq
      have := (isDigit_iff 120).1 (hd 120 (by rw [heq.2]; simp))
      omega
    · rename_i heq
      simp at heq
      have := (isDigit_iff 88).1 (hd 88 (by rw [heq.2]; simp))
      omega
    · rfl
  unfold parseInt
  simp only [h1, hs, hr, htw]
  simp

theorem parseInt_toDecimal (n : Nat) : parseInt (toDecimal n) = some (n : Int) := by
  rw [parseInt_digits _ (toDecimal_ne_nil n) (toDecimal_digits n), digitsValue_toDecimal]

theorem hexDigit_isLowerHex (v : Nat) (h : v < 16) : isLowerHex (hexDigit v) = true := by
  unfold hexDigit isLowerHex isDigit
  split <;> simp <;> omega

theorem toHex_isLowerHex (bytes : List (Fin 256)) : ∀ c ∈ toHex bytes, isLowerHex c = true := by
  intro c hc
  simp only [toHex, List.mem_flatMap] at hc
  obtain ⟨b, _, hb⟩ := hc
  have := b.isLt
  simp only [List.mem_cons, List.mem_singleton, List.not_mem_nil, or_false] at hb
  rcases hb with rfl | rfl
  · exact hexDigit_isLowerHex _ (by omega)
  · exact hexDigit_isLowerHex _ (by omega)

theorem toHex_length (bytes : List (Fin 256)) : (toHex bytes).length = 2 * bytes.length := by
  induction bytes with
  | nil => rfl
  | cons b t ih => simp [toHex, List.flatMap_cons] at ih ⊢; omega

/-! ## Lemmas: the matcher on the two name patterns -/

theorem plusLoop_cons {α : Type} (p : Nat → Bool) (k : Str → Option α) (c : Nat) (s : Str) :
    plusLoop p k (c :: s) =
      if p c then
        match plusLoop p k s with
        | some r => some r
        | none => k s
      else none := rfl

theorem plusLoop_stop {α : Type} (p : Nat → Bool) (k : Str → Option α) (rest : Str)
    (hrest : ∀ x t, rest = x :: t → p x = false) : plusLoop p k rest = none := by
  cases rest with
  | nil => rfl
  | cons x t => simp [plusLoop, hrest x t rfl]

/-- A greedy class loop in front of a continuation that rejects every text starting inside
the class consumes the whole run: there is a single way to match. -/
theorem plusLoop_run {α : Type} (p : Nat → Bool) (k : Str → Option α)
    (hk : ∀ x t, p x = true → k (x :: t) = none) (rest : Str)
    (hrest : ∀ x t, rest = x :: t → p x = false) :
    ∀ a : Str, a ≠ [] → (∀ x ∈ a, p x = true) → plusLoop p k (a ++ rest) = k rest := by
  intro a
  induction a with
  | nil => intro h; exact absurd rfl h
  | cons c a ih =>
    intro _ hall
    have hc : p c = true := hall c (by simp)
    rw [List.cons_append, plusLoop_cons, if_pos hc]
    cases a with
    | nil =>
      rw [List.nil_append, plusLoop_stop p k rest hrest]
    | cons y a =>
      rw [ih (by simp) (fun x hx => hall x (List.mem_cons_of_mem _ hx))]
      cases hkr : k rest with
      | some r => rfl
      | none => exact hk y _ (hall y (by simp))

theorem take_length_sub (a r : Str) : (a ++ r).take ((a ++ r).length - r.length) = a := by
  simp

theorem isUnderscore_of_isDigit (x : Nat) (h : isDigit x = true) : isUnderscore x = false := by
  rw [isDigit_iff] at h
  simp [isUnderscore]; omega

theorem isUnderscore_of_isLowerHex (x : Nat) (h : isLowerHex x = true) :
    isUnderscore x = false := by
  simp [isLowerHex, isDigit] at h
  simp [isUnderscore]; omega

/-- The catalog pattern on a text of the shape digits, `_`, lowercase hex, `_`, rest: it
matches, group 1 is the digits and group 2 the whole rest. -/
theorem regexMatch_catalogPattern (d h n : Str) (hd0 : d ≠ []) (hd : ∀ c ∈ d, isDigit c = true)
    (hh0 : h ≠ []) (hh : ∀ c ∈ h, isLowerHex c = true)
    (hn0 : n ≠ []) (hn : ∀ c ∈ n, isDot c = true) :
    regexMatch catalogPattern (d ++ [95] ++ h ++ [95] ++ n) = some [d, n] := by
  obtain ⟨c, t, rfl⟩ := List.exists_cons_of_ne_nil hd0
  have e : (c :: t) ++ [95] ++ h ++ [95] ++ n = c :: (t ++ 95 :: (h ++ 95 :: n)) := by simp
  have e2 : c :: (t ++ 95 :: (h ++ 95 :: n)) = (c :: t) ++ 95 :: (h ++ 95 :: n) := by simp
  rw [e]
  unfold regexMatch
  rw [execAt]
  have key : matchRe (c :: (t ++ 95 :: (h ++ 95 :: n))).length catalogPattern
      (c :: (t ++ 95 :: (h ++ 95 :: n))) [] (fun _ caps => some caps) = some [c :: t, n] := by
    simp only [catalogPattern, matchRe, if_true]
    rw [e2]
    rw [plusLoop_run isDigit _ _ (95 :: (h ++ 95 :: n)) _ (c :: t) (by simp) hd]
    · simp only [take_length_sub, isUnderscore, beq_self_eq_true, if_true, List.nil_append]
      rw [plusLoop_run isLowerHex _ _ (95 :: n) _ h hh0 hh]
      · simp only [beq_self_eq_true, if_true]
        have := plusLoop_run isDot (fun t_1 => if t_1.isEmpty = true then
            some ([c :: t] ++ [List.take (n.length - t_1.length) n]) else none) (by
            intro x t _; simp) [] (by intro x t h; cases h) n hn0 hn
        simp only [List.append_nil] at this
        rw [this]
        simp
      · intro x t hx
        simp [isUnderscore_of_isLowerHex x hx, isUnderscore] at *
        intro hx2; subst hx2; simp [isLowerHex, isDigit] at hx
      · intro x t hx
        simp at hx
        rw [← hx.1]; rfl
    · intro x t hx
      have := isUnderscore_of_isDigit x hx
      simp [isUnderscore] at this
      simp [isUnderscore, this]
    · intro x t hx
      simp at hx
      rw [← hx.1]; rfl
  rw [key]

/-- The download pattern on a text of the shape digits, `_`, lowercase hex, `_`, rest: it
matches and its only group is the whole rest. -/
theorem regexMatch_downloadPattern (d h n : Str) (hd0 : d ≠ [])
    (hd : ∀ c ∈ d, isDigit c = true) (hh0 : h ≠ []) (hh : ∀ c ∈ h, isLowerHex c = true)
    (hn0 : n ≠ []) (hn : ∀ c ∈ n, isDot c = true) :
    regexMatch downloadPattern (d ++ [95] ++ h ++ [95] ++ n) = some [n] := by
  obtain ⟨c, t, rfl⟩ := List.exists_cons_of_ne_nil hd0
  have e : (c :: t) ++ [95] ++ h ++ [95] ++ n = c :: (t ++ 95 :: (h ++ 95 :: n)) := by simp
  have e2 : c :: (t ++ 95 :: (h ++ 95 :: n)) = (c :: t) ++ 95 :: (h ++ 95 :: n) := by simp
  rw [e]
  unfold regexMatch
  rw [execAt]
  have key : matchRe (c :: (t ++ 95 :: (h ++ 95 :: n))).length downloadPattern
      (c :: (t ++ 95 :: (h ++ 95 :: n))) [] (fun _ caps => some caps) = some [n] := by
    simp only [downloadPattern, matchRe, if_true]
    rw [e2]
    rw [plusLoop_run isDigit _ _ (95 :: (h ++ 95 :: n)) _ (c :: t) (by simp) hd]
    · simp only [isUnderscore, beq_self_eq_true, if_true, List.nil_append]
      rw [plusLoop_run isLowerHex _ _ (95 :: n) _ h hh0 hh]
      · simp only [beq_self_eq_true, if_true]
        have := plusLoop_run isDot (fun t_1 => if t_1.isEmpty = true then
            some ([List.take (n.length - t_1.length) n]) else none) (by
            intro x t _; simp) [] (by intro x t h; cases h) n hn0 hn
        simp only [List.append_nil] at this
        rw [this]
        simp
      · intro x t hx
        simp [isUnderscore_of_isLowerHex x hx, isUnderscore] at *
        intro hx2; subst hx2; simp [isLowerHex, isDigit] at hx
      · intro x t hx
        simp at hx
        rw [← hx.1]; rfl
    · intro x t hx
      have := isUnderscore_of_isDigit x hx
      simp [isUnderscore] at this
      simp [isUnderscore, this]
    · intro x t hx
      simp at hx
      rw [← hx.1]; rfl
  rw [key]

/-! ## Lemmas: the sanitised name -/

theorem safeName_length (o : Str) : (safeName o).length = o.length := by
  simp [safeName]

theorem safeName_ne_nil (o : Str) (h : o ≠ []) : safeName o ≠ [] := by
  intro e
  have := safeName_length o
  rw [e] at this
  exact h (List.length_eq_zero.1 this.symm)

theorem isDot_of_isSafeChar (c : Nat) (h : isSafeChar c = true) : isDot c = true := by
  simp [isSafeChar] at h
  simp [isDot]
  omega

theorem safeName_isDot (o : Str) : ∀ c ∈ safeName o, isDot c = true := by
  intro c hc
  simp only [safeName, List.mem_map] at hc
  obtain ⟨x, _, rfl⟩ := hc
  split
  · rename_i h; exact isDot_of_isSafeChar x h
  · decide

theorem toHex_ne_nil (r : List (Fin 256)) (h : r ≠ []) : toHex r ≠ [] := by
  intro e
  have := toHex_length r
  rw [e] at this
  have : r.length = 0 := by simpa using this.symm
  exact h (List.length_eq_zero.1 this)

/-- The stored name of an upload with a non-empty name and a non-empty salt matches the
catalog pattern with the timestamp text and the sanitised name as its groups. -/
theorem regexMatch_filename (o : Str) (t : Nat) (r : List (Fin 256)) (ho : o ≠ [])
    (hr : r ≠ []) :
    regexMatch catalogPattern (filename o t r) = some [toDecimal t, safeName o] :=
  regexMatch_catalogPattern _ _ _ (toDecimal_ne_nil t) (toDecimal_digits t) (toHex_ne_nil r hr)
    (toHex_isLowerHex r) (safeName_ne_nil o ho) (safeName_isDot o)

theorem ne_nil_of_le_length {α : Type} (r : List α) (n : Nat) (hn : 0 < n) (h : n ≤ r.length) :
    r ≠ [] := by
  intro e; rw [e] at h; simp at h; omega

/-! ## The name codec -/

/-- C1. Timestamp round trip: the stored name `storage.filename` builds from a non-empty
original name, a timestamp and a salt of at least 4 bytes matches the catalog pattern, and
the time `scanDir` decodes from it is the timestamp (whatever the modify-time). -/
theorem timestamp_round_trip (originalname : Str) (timestamp : Nat) (random : List (Fin 256))
    (mtimeMs : ℚ) (hname : originalname ≠ []) (hsalt : 4 ≤ random.length) :
    (regexMatch catalogPattern (filename originalname timestamp random)).isSome = true ∧
      (decodeItem (filename originalname timestamp random) mtimeMs).2 = (timestamp : ℚ) := by
  have hm := regexMatch_filename originalname timestamp random hname
    (ne_nil_of_le_length random 4 (by omega) hsalt)
  refine ⟨by rw [hm]; rfl, ?_⟩
  unfold decodeItem
  rw [hm]
  simp [parseInt_toDecimal]

theorem timestamp_round_trip_witness :
    utf16 "report.pdf" ≠ [] ∧ 4 ≤ ([0xa1, 0xb2, 0xc3, 0xd4] : List (Fin 256)).length ∧
      (regexMatch catalogPattern
        (filename (utf16 "report.pdf") 1704067200000 [0xa1, 0xb2, 0xc3, 0xd4])).isSome = true ∧
      (decodeItem (filename (utf16 "report.pdf") 1704067200000 [0xa1, 0xb2, 0xc3, 0xd4]) 0).2 =
        ((1704067200000 : Nat) : ℚ) :=
  ⟨by decide, by decide,
    timestamp_round_trip (utf16 "report.pdf") 1704067200000 [0xa1, 0xb2, 0xc3, 0xd4] 0
      (by decide) (by decide)⟩

theorem decimalAux_head (fuel : Nat) : ∀ (n : Nat) (acc : Str), n < fuel → 0 < n →
    (decimalAux fuel n acc).head? ≠ some 48 := by
  induction fuel with
  | zero => intro n acc h; omega
  | succ f ih =>
    intro n acc hf hn
    unfold decimalAux
    split
    · simp only [List.head?_cons, ne_eq, Option.some.injEq]; omega
    · exact ih _ _ (by omega) (by omega)

theorem toHex_cons (b : Fin 256) (t : List (Fin 256)) :
    toHex (b :: t) = hexDigit (b.val / 16) :: hexDigit (b.val % 16) :: toHex t := by
  simp [toHex]

theorem toHex_getD (r : List (Fin 256)) : ∀ (i : Nat) (hi : i < r.length),
    (toHex r).getD (2 * i) 0 = hexDigit (r[i].val / 16) ∧
      (toHex r).getD (2 * i + 1) 0 = hexDigit (r[i].val % 16) := by
  induction r with
  | nil => intro i hi; cases hi
  | cons b t ih =>
    intro i hi
    rw [toHex_cons]
    cases i with
    | zero => exact ⟨rfl, rfl⟩
    | succ j =>
      have hj : j < t.length := by simpa using hi
      have e1 : 2 * (j + 1) = 2 * j + 1 + 1 := by omega
      rw [e1]
      simp only [List.getD_cons_succ, List.getElem_cons_succ]
      exact ih j hj

theorem digitValue_hexDigit (v : Nat) (h : v < 16) : digitValue (hexDigit v) = some v := by
  unfold hexDigit digitValue
  split
  · rw [if_pos (by omega)]; congr 1; omega
  · rw [if_neg (by omega), if_pos (by omega)]; congr 1; omega

/-- C3. Stored-name encoding: for a 4-byte salt the stored name is the decimal timestamp,
`_`, eight lowercase hex digits, `_` and the sanitised name. The decimal text is the
canonical one (digits only, no leading zero, reads back as the timestamp); the hex text
holds for each salt byte, in order, the digit of its high half and the digit of its low
half; the sanitised name has the length of the original and holds, position by position,
the original code unit when it is in `[A-Za-z0-9]`, in U+4E00..U+9FA5 or `.`, and `_`
otherwise. The two scenarios of the specification are instances. -/
theorem stored_name_encoding (originalname : Str) (timestamp : Nat) (random : List (Fin 256))
    (hsalt : random.length = 4) :
    filename originalname timestamp random =
        toDecimal timestamp ++ [95] ++ toHex random ++ [95] ++ safeName originalname ∧
      parseInt (toDecimal timestamp) = some (timestamp : Int) ∧
      (∀ c ∈ toDecimal timestamp, 48 ≤ c ∧ c ≤ 57) ∧
      (0 < timestamp → (toDecimal timestamp).head? ≠ some 48) ∧
      (timestamp = 0 → toDecimal timestamp = [48]) ∧
      (toHex random).length = 8 ∧
      (∀ c ∈ toHex random, (48 ≤ c ∧ c ≤ 57) ∨ (97 ≤ c ∧ c ≤ 102)) ∧
      (∀ (i : Nat) (hi : i < random.length),
        digitValue ((toHex random).getD (2 * i) 0) = some (random[i].val / 16) ∧
          digitValue ((toHex random).getD (2 * i + 1) 0) = some (random[i].val % 16)) ∧
      (safeName originalname).length = originalname.length ∧
      (∀ i : Nat, i < originalname.length →
        (safeName originalname).getD i 0 =
          if (65 ≤ originalname.getD i 0 ∧ originalname.getD i 0 ≤ 90) ∨
              (97 ≤ originalname.getD i 0 ∧ originalname.getD i 0 ≤ 122) ∨
              (48 ≤ originalname.getD i 0 ∧ originalname.getD i 0 ≤ 57) ∨
              (0x4E00 ≤ originalname.getD i 0 ∧ originalname.getD i 0 ≤ 0x9FA5) ∨
              originalname.getD i 0 = 46
          then originalname.getD i 0 else 95) ∧
      filename (utf16 "report.pdf") 1704067200000 [0xa1, 0xb2, 0xc3, 0xd4] =
        utf16 "1704067200000_a1b2c3d4_report.pdf" ∧
      filename (utf16 "My File/v2.txt") timestamp random =
        toDecimal timestamp ++ [95] ++ toHex random ++ utf16 "_My_File_v2.txt" := by
  refine ⟨rfl, parseInt_toDecimal timestamp, ?_, ?_, ?_, ?_, ?_, ?_, safeName_length _, ?_,
    by decide, ?_⟩
  · intro c hc
    exact (isDigit_iff c).1 (toDecimal_digits timestamp c hc)
  · intro h0
    exact decimalAux_head _ _ _ (Nat.lt_succ_self _) h0
  · intro h0
    subst h0
    rfl
  · rw [toHex_length, hsalt]
  · intro c hc
    have := toHex_isLowerHex random c hc
    simp [isLowerHex, isDigit] at this
    omega
  · intro i hi
    have hb := random[i].isLt
    rw [(toHex_getD random i hi).1, (toHex_getD random i hi).2,
      digitValue_hexDigit _ (by omega), digitValue_hexDigit _ (by omega)]
    exact ⟨rfl, rfl⟩
  · intro i hi
    have hi2 : i < (safeName originalname).length := by rw [safeName_length]; exact hi
    rw [List.getD_eq_getElem _ _ hi2, List.getD_eq_getElem _ _ hi]
    simp only [safeName, List.getElem_map]
    by_cases hs : isSafeChar originalname[i] = true
    · rw [if_pos hs, if_pos]
      simp [isSafeChar] at hs
      omega
    · rw [if_neg hs, if_neg]
      simp [isSafeChar] at hs
      omega
  · have : safeName (utf16 "My File/v2.txt") = utf16 "My_File_v2.txt" := by decide
    simp only [filename, this]
    have e : utf16 "_My_File_v2.txt" = [95] ++ utf16 "My_File_v2.txt" := by decide
    rw [e]
    simp

theorem stored_name_encoding_witness :
    ([0xff, 0x00, 0x10, 0x07] : List (Fin 256)).length = 4 ∧
      filename (utf16 "My File/v2.txt") 1704067200000 [0xff, 0x00, 0x10, 0x07] =
        utf16 "1704067200000_ff001007_My_File_v2.txt" ∧
      (toHex [0xff, 0x00, 0x10, 0x07]).length = 8 ∧
      (safeName (utf16 "My File/v2.txt")).length = (utf16 "My File/v2.txt").length :=
  ⟨by decide,
    ((stored_name_encoding (utf16 "My File/v2.txt") 1704067200000 [0xff, 0x00, 0x10, 0x07]
      (by decide)).1).trans (by decide),
    (stored_name_encoding (utf16 "My File/v2.txt") 1704067200000 [0xff, 0x00, 0x10, 0x07]
      (by decide)).2.2.2.2.2.1,
    (stored_name_encoding (utf16 "My File/v2.txt") 1704067200000 [0xff, 0x00, 0x10, 0x07]
      (by decide)).2.2.2.2.2.2.2.2.1⟩

/-- C10. Decoded name is the sanitised name: for a non-empty original name and a 4-byte
salt, the name the catalog scan decodes from the stored name (group 2 of the catalog
pattern) and the download name of the download route (group 1 of the download pattern) are
both exactly the sanitised original name, whatever the original name starts with. -/
theorem decoded_name_is_sanitized (originalname : Str) (timestamp : Nat)
    (random : List (Fin 256)) (mtimeMs : ℚ) (hname : originalname ≠ [])
    (hsalt : random.length = 4) :
    (decodeItem (filename originalname timestamp random) mtimeMs).1 = safeName originalname ∧
      downloadName (filename originalname timestamp random) = safeName originalname := by
  have hr : random ≠ [] := ne_nil_of_le_length random 4 (by omega) (by omega)
  constructor
  · unfold decodeItem
    rw [regexMatch_filename originalname timestamp random hname hr]
    rfl
  · unfold downloadName filename
    rw [regexMatch_downloadPattern _ _ _ (toDecimal_ne_nil timestamp) (toDecimal_digits timestamp)
      (toHex_ne_nil random hr) (toHex_isLowerHex random) (safeName_ne_nil originalname hname)
      (safeName_isDot originalname)]
    rfl

theorem decoded_name_is_sanitized_witness :
    utf16 "2024_ab_c d.txt" ≠ [] ∧ ([0, 255, 16, 7] : List (Fin 256)).length = 4 ∧
      (decodeItem (filename (utf16 "2024_ab_c d.txt") 5 [0, 255, 16, 7]) 0).1 =
        safeName (utf16 "2024_ab_c d.txt") ∧
      downloadName (filename (utf16 "2024_ab_c d.txt") 5 [0, 255, 16, 7]) =
        safeName (utf16 "2024_ab_c d.txt") :=
  ⟨by decide, by decide,
    decoded_name_is_sanitized (utf16 "2024_ab_c d.txt") 5 [0, 255, 16, 7] 0 (by decide)
      (by decide)⟩

/-! ## Lemmas: paths -/

theorem splitOn_of_not_mem (sep : Nat) : ∀ s : Str, sep ∉ s → splitOn sep s = [s] := by
  intro s
  induction s with
  | nil => intro _; rfl
  | cons c t ih =>
    intro h
    have hc : c ≠ sep := fun e => h (by simp [e])
    have ht : sep ∉ t := fun e => h (List.mem_cons_of_mem _ e)
    simp [splitOn, hc, ih ht]

theorem endsWithSlash_single (s : Str) (h47 : (47 : Nat) ∉ s) : endsWithSlash [s] = false := by
  unfold endsWithSlash
  cases s with
  | nil => rfl
  | cons c t =>
    simp only [List.filter, List.isEmpty_cons, Bool.not_false, List.getLast?_singleton]
    cases hl : (c :: t).getLast? with
    | none => rfl
    | some x =>
      have hx : x ∈ c :: t := List.mem_of_getLast?_eq_some hl
      have : x ≠ 47 := fun e => h47 (e ▸ hx)
      simp [this]

theorem pathJoin_single (base : List Str) (s : Str) (h47 : (47 : Nat) ∉ s) (h0 : s ≠ [])
    (h1 : s ≠ [46]) (h2 : s ≠ [46, 46]) : pathJoin base [s] = ⟨base ++ [s], false⟩ := by
  unfold pathJoin
  rw [endsWithSlash_single s h47]
  simp only [List.flatMap_cons, List.flatMap_nil, List.append_nil, splitOn_of_not_mem 47 s h47]
  unfold normalizeSegs
  rw [if_neg (by simp [h0, h1]), if_neg h2]
  rfl

theorem resolve_append (a b : List Str) : ∀ fs : FsNode, resolve fs (a ++ b) =
    match resolve fs a with
    | some n => resolve n b
    | none => none := by
  induction a with
  | nil => intro fs; rfl
  | cons seg rest ih =>
    intro fs
    simp only [List.cons_append, resolve]
    cases fs.child seg with
    | none => rfl
    | some n => exact ih n

theorem child_of_mem (entries : List (Str × FsNode)) (d : Str) (node : FsNode)
    (hn : (entries.map Prod.fst).Nodup) (hm : (d, node) ∈ entries) :
    (FsNode.dir entries).child d = some node := by
  induction entries with
  | nil => cases hm
  | cons e rest ih =>
    have hn2 := List.nodup_cons.1 hn
    unfold FsNode.child
    simp only [List.find?_cons]
    by_cases he : e.1 = d
    · have hbe : (e.1 == d) = true := by simpa using he
      rw [hbe]
      rcases List.mem_cons.1 hm with h | h
      · rw [← h]; rfl
      · exact absurd (he ▸ List.mem_map.2 ⟨(d, node), h, rfl⟩) hn2.1
    · have hbe : (e.1 == d) = false := by simpa using he
      rw [hbe]
      rcases List.mem_cons.1 hm with h | h
      · exact absurd (by rw [← h]) he
      · have := ih hn2.2 h
        unfold FsNode.child at this
        exact this

theorem lookup_shard (uploadDir : List Str) (fs : FsNode) (entries : List (Str × FsNode))
    (d : Str) (hroot : resolve fs uploadDir = some (.dir entries)) (hv : validName d) :
    pathJoin uploadDir [d] = ⟨uploadDir ++ [d], false⟩ ∧
      lookup fs (pathJoin uploadDir [d]) = (FsNode.dir entries).child d := by
  have hp := pathJoin_single uploadDir d hv.2.1 hv.1 hv.2.2.1 hv.2.2.2
  refine ⟨hp, ?_⟩
  rw [hp]
  unfold lookup
  simp only [resolve_append, hroot, resolve]
  cases (FsNode.dir entries).child d with
  | none => rfl
  | some n => simp

/-! ## Lemmas: the catalog scan -/

theorem scanItems_eq (uploadDir dir : List Str) (entries : List (Str × FsNode)) :
    ∀ fileList : List FileInfo, scanItems uploadDir dir entries fileList =
      fileList ++ entries.filterMap (itemRecord uploadDir dir) := by
  induction entries with
  | nil => intro fl; simp [scanItems]
  | cons e rest ih =>
    intro fl
    obtain ⟨item, node⟩ := e
    cases node with
    | file size mtimeMs =>
      simp only [scanItems, ih, itemRecord, List.filterMap_cons, List.append_assoc,
        List.singleton_append]
    | dir es => simp only [scanItems, ih, itemRecord, List.filterMap_cons]
    | other => simp only [scanItems, ih, itemRecord, List.filterMap_cons]

/-- C2. Decode falls back without an error: when the entry `item` of a scanned directory is
a regular file whose name does not match the catalog pattern, the decode step yields the
raw name and the modify-time, and the scan returns (it does not throw) a list holding a
record with that name, saved name, size and time. -/
theorem decode_fallback (uploadDir : List Str) (fs : FsNode) (dir : FilePath)
    (entries : List (Str × FsNode)) (fileList : List FileInfo) (item : Str) (size : Nat)
    (mtimeMs : ℚ) (hdir : lookup fs dir = some (.dir entries))
    (hitem : (item, FsNode.file size mtimeMs) ∈ entries)
    (hno : regexMatch catalogPattern item = none) :
    decodeItem item mtimeMs = (item, mtimeMs) ∧
      ∃ recs, scanDir uploadDir fs dir fileList = some recs ∧
        ∃ r ∈ recs, r.name = item ∧ r.savedName = item ∧ r.size = size ∧ r.time = mtimeMs := by
  have hdec : decodeItem item mtimeMs = (item, mtimeMs) := by
    unfold decodeItem; rw [hno]
  refine ⟨hdec, scanItems uploadDir dir.segs entries fileList, ?_, ?_⟩
  · unfold scanDir; rw [hdir]
  · rw [scanItems_eq]
    refine ⟨_, List.mem_append_right _ (List.mem_filterMap.2 ⟨_, hitem, rfl⟩), ?_⟩
    simp [hdec]

/-! ## Lemmas: sorting and slicing -/

theorem compareTime_le_iff (a b : FileInfo) : compareTime a b ≤ 0 ↔ b.time ≤ a.time := by
  unfold compareTime; exact sub_nonpos

instance compareTime_total : IsTotal FileInfo (fun a b => compareTime a b ≤ 0) :=
  ⟨fun a b => by
    simp only [compareTime_le_iff]
    exact le_total b.time a.time⟩

instance compareTime_trans : IsTrans FileInfo (fun a b => compareTime a b ≤ 0) :=
  ⟨fun a b c hab hbc => by
    simp only [compareTime_le_iff] at *
    exact le_trans hbc hab⟩

theorem sortByTime_perm (fileList : List FileInfo) : (sortByTime fileList).Perm fileList :=
  List.perm_insertionSort _ fileList

theorem sortByTime_length (fileList : List FileInfo) :
    (sortByTime fileList).length = fileList.length :=
  (sortByTime_perm fileList).length_eq

theorem sortByTime_sorted (fileList : List FileInfo) :
    List.Sorted (fun a b => b.time ≤ a.time) (sortByTime fileList) := by
  have h : List.Sorted (fun a b => compareTime a b ≤ 0) (sortByTime fileList) :=
    List.sorted_insertionSort _ fileList
  exact List.Pairwise.imp (fun {a b} hab => (compareTime_le_iff a b).1 hab) h

theorem slice0_natCast {α : Type} (xs : List α) (n : Nat) :
    slice0 xs (some (n : Int)) = xs.take n := by
  simp [slice0]

theorem getFiles_of_collect (uploadDir : List Str) (fs : FsNode) (date limit : Option Str)
    (fileList : List FileInfo) (h : collectFiles uploadDir fs date = some fileList) :
    getFiles uploadDir fs date limit = some {
      total := (sortByTime fileList).length
      returned := (slice0 (sortByTime fileList) (parseInt (limit.getD (toDecimal 50)))).length
      files := slice0 (sortByTime fileList) (parseInt (limit.getD (toDecimal 50))) } := by
  unfold getFiles; rw [h]

theorem slice0_initial {α : Type} (xs : List α) (stop : Option Int) : slice0 xs stop <+: xs := by
  unfold slice0
  cases stop with
  | none => exact List.nil_prefix
  | some e =>
    simp only
    split
    · exact List.take_prefix _ _
    · exact List.take_prefix _ _

theorem scanDirs_eq (uploadDir : List Str) (fs : FsNode) (entries : List (Str × FsNode))
    (hroot : resolve fs uploadDir = some (.dir entries))
    (hn : (entries.map Prod.fst).Nodup) :
    ∀ (ds : List Str) (fileList : List FileInfo),
      (∀ d ∈ ds, validName d ∧ ∃ files, (d, FsNode.dir files) ∈ entries) →
      scanDirs uploadDir fs ds fileList =
        some (fileList ++ ds.flatMap (shardRecordsOf uploadDir entries)) := by
  intro ds
  induction ds with
  | nil => intro fl _; simp [scanDirs]
  | cons d rest ih =>
    intro fl h
    obtain ⟨hv, files, hmem⟩ := h d (by simp)
    have hl := lookup_shard uploadDir fs entries d hroot hv
    have hc := child_of_mem entries d _ hn hmem
    have hs : scanDir uploadDir fs (pathJoin uploadDir [d]) fl =
        some (fl ++ shardRecordsOf uploadDir entries d) := by
      unfold scanDir shardRecordsOf
      rw [hl.2, hc]
      simp only [scanItems_eq, hl.1]
    unfold scanDirs
    rw [hs]
    simp only
    rw [ih _ (fun x hx => h x (List.mem_cons_of_mem _ hx))]
    simp [List.flatMap_cons]

theorem shardRecords_eq (uploadDir : List Str) (entries : List (Str × FsNode))
    (hn : (entries.map Prod.fst).Nodup) :
    ∀ l : List (Str × FsNode), (∀ e ∈ l, e ∈ entries) →
      ((l.filter fun e => e.2.isDirectory).map Prod.fst).flatMap
          (shardRecordsOf uploadDir entries) = shardRecords uploadDir l := by
  intro l
  induction l with
  | nil => intro _; rfl
  | cons e rest ih =>
    intro h
    have ihr := ih (fun x hx => h x (List.mem_cons_of_mem _ hx))
    obtain ⟨d, node⟩ := e
    have hc := child_of_mem entries d node hn (h _ (by simp))
    unfold shardRecords at ihr ⊢
    cases node with
    | dir files =>
      simp only [List.filter_cons, FsNode.isDirectory, if_true, List.map_cons,
        List.flatMap_cons, ihr]
      congr 1
      unfold shardRecordsOf
      rw [hc]
    | file size mtimeMs =>
      simpa [List.filter_cons, FsNode.isDirectory, List.flatMap_cons] using ihr
    | other =>
      simpa [List.filter_cons, FsNode.isDirectory, List.flatMap_cons] using ihr

/-- With no `date`, the scan collects a permutation of the records of every regular file
directly in a directory directly under the storage root. -/
theorem collectFiles_all_shards (uploadDir : List Str) (fs : FsNode)
    (entries : List (Str × FsNode)) (hroot : resolve fs uploadDir = some (.dir entries))
    (hn : (entries.map Prod.fst).Nodup) (hv : ∀ e ∈ entries, validName e.1) :
    ∃ fileList, collectFiles uploadDir fs none = some fileList ∧
      fileList.Perm (shardRecords uploadDir entries) := by
  have hds : ∀ d ∈ shardDirs entries, validName d ∧ ∃ files, (d, FsNode.dir files) ∈ entries := by
    intro d hd
    unfold shardDirs at hd
    rw [List.mem_reverse, (List.perm_insertionSort _ _).mem_iff] at hd
    obtain ⟨e, he, rfl⟩ := List.mem_map.1 hd
    obtain ⟨he1, he2⟩ := List.mem_filter.1 he
    refine ⟨hv e he1, ?_⟩
    obtain ⟨d, node⟩ := e
    cases node with
    | dir files => exact ⟨files, he1⟩
    | file size mtimeMs => cases he2
    | other => cases he2
  refine ⟨[] ++ (shardDirs entries).flatMap (shardRecordsOf uploadDir entries), ?_, ?_⟩
  · unfold collectFiles
    simp only [hroot]
    exact scanDirs_eq uploadDir fs entries hroot hn _ [] hds
  · rw [List.nil_append, ← shardRecords_eq uploadDir entries hn entries (fun _ h => h)]
    apply List.Perm.flatMap_right
    unfold shardDirs
    exact (List.reverse_perm _).trans (List.perm_insertionSort _ _)

/-- C5. Pagination after sorting: let the storage root be a directory with the listed
entries (distinct file names), and let the catalog be the `N` records of the regular files
directly in its day-shard directories. When the `limit` query parses to `L` with
`0 ≤ L < N`, `GET /api/files` with no `date` answers `total = N`, `returned = L`, and
exactly `L` records: the first `L` of a list that holds all `N` records of all shards
ordered by time descending, so that no record left out, of any shard, is more recent than
a returned one. With a `date` the same holds of the records that scan collects. -/
theorem pagination_after_sort (uploadDir : List Str) (fs : FsNode)
    (entries : List (Str × FsNode)) (limit : Str) (L : Nat)
    (hroot : resolve fs uploadDir = some (.dir entries))
    (hnames : (entries.map Prod.fst).Nodup) (hvalid : ∀ e ∈ entries, validName e.1)
    (hlimit : parseInt limit = some (L : Int))
    (hL : L < (shardRecords uploadDir entries).length) :
    (∃ resp sorted, getFiles uploadDir fs none (some limit) = some resp ∧
      sorted.Perm (shardRecords uploadDir entries) ∧
      List.Sorted (fun a b => b.time ≤ a.time) sorted ∧
      resp.files = sorted.take L ∧ resp.files.length = L ∧ resp.returned = L ∧
      resp.total = (shardRecords uploadDir entries).length ∧
      (∀ r ∈ resp.files, ∀ q ∈ sorted.drop L, q.time ≤ r.time) ∧
      (∀ q ∈ shardRecords uploadDir entries, q ∈ resp.files ∨
        ∀ r ∈ resp.files, q.time ≤ r.time)) ∧
      ∀ (date : Option Str) (fileList : List FileInfo),
        collectFiles uploadDir fs date = some fileList → L < fileList.length →
        ∃ resp, getFiles uploadDir fs date (some limit) = some resp ∧
          resp.files = (sortByTime fileList).take L ∧ resp.files.length = L ∧
          resp.returned = L ∧ resp.total = fileList.length ∧
          (sortByTime fileList).Perm fileList ∧
          List.Sorted (fun a b => b.time ≤ a.time) (sortByTime fileList) ∧
          ∀ r ∈ resp.files, ∀ q ∈ (sortByTime fileList).drop L, q.time ≤ r.time := by
  have hgen : ∀ (date : Option Str) (fileList : List FileInfo),
      collectFiles uploadDir fs date = some fileList → L < fileList.length →
      ∃ resp, getFiles uploadDir fs date (some limit) = some resp ∧
        resp.files = (sortByTime fileList).take L ∧ resp.files.length = L ∧
        resp.returned = L ∧ resp.total = fileList.length ∧
        (sortByTime fileList).Perm fileList ∧
        List.Sorted (fun a b => b.time ≤ a.time) (sortByTime fileList) ∧
        ∀ r ∈ resp.files, ∀ q ∈ (sortByTime fileList).drop L, q.time ≤ r.time := by
    intro date fileList hscan hlt
    refine ⟨_, getFiles_of_collect uploadDir fs date (some limit) fileList hscan, ?_⟩
    simp only [Option.getD_some, hlimit, slice0_natCast, List.length_take, sortByTime_length]
    refine ⟨trivial, by omega, by omega, trivial, sortByTime_perm _, sortByTime_sorted _, ?_⟩
    intro r hr q hq
    have hs := sortByTime_sorted fileList
    rw [← List.take_append_drop L (sortByTime fileList)] at hs
    exact (List.pairwise_append.1 hs).2.2 r hr q hq
  refine ⟨?_, hgen⟩
  obtain ⟨fileList, hscan, hperm⟩ := collectFiles_all_shards uploadDir fs entries hroot hnames
    hvalid
  have hlen : fileList.length = (shardRecords uploadDir entries).length := hperm.length_eq
  obtain ⟨resp, hresp, hfiles, hl, hret, htot, hp, hsorted, hrecent⟩ :=
    hgen none fileList hscan (by omega)
  refine ⟨resp, sortByTime fileList, hresp, hp.trans hperm, hsorted, hfiles, hl, hret,
    htot.trans hlen, hrecent, ?_⟩
  intro q hq
  have hq2 : q ∈ sortByTime fileList := (hp.trans hperm).mem_iff.2 hq
  rw [← List.take_append_drop L (sortByTime fileList), List.mem_append] at hq2
  rcases hq2 with h | h
  · exact Or.inl (hfiles ▸ h)
  · exact Or.inr fun r hr => hrecent r hr q h

/-! ## Catalog ordering -/

theorem sortByTime_map_time_eq (l1 l2 : List FileInfo) (h : l1.Perm l2) :
    (sortByTime l1).map FileInfo.time = (sortByTime l2).map FileInfo.time := by
  have p : ((sortByTime l1).map FileInfo.time).Perm ((sortByTime l2).map FileInfo.time) :=
    (((sortByTime_perm l1).trans h).trans (sortByTime_perm l2).symm).map _
  have s1 : List.Sorted (fun a b : ℚ => b ≤ a) ((sortByTime l1).map FileInfo.time) :=
    List.pairwise_map.2 (sortByTime_sorted l1)
  have s2 : List.Sorted (fun a b : ℚ => b ≤ a) ((sortByTime l2).map FileInfo.time) :=
    List.pairwise_map.2 (sortByTime_sorted l2)
  haveI : IsAntisymm ℚ (fun a b : ℚ => b ≤ a) := ⟨fun a b hab hba => le_antisymm hba hab⟩
  exact List.eq_of_perm_of_sorted p s1 s2

theorem sorted_strict_of_nodup (l : List FileInfo)
    (hs : List.Sorted (fun a b => b.time ≤ a.time) l) (hn : (l.map FileInfo.time).Nodup) :
    List.Sorted (fun a b => b.time < a.time) l := by
  have hn2 : List.Pairwise (fun a b : FileInfo => a.time ≠ b.time) l :=
    List.pairwise_map.1 hn
  exact List.Pairwise.imp₂ (fun {a b} h1 h2 => lt_of_le_of_ne h1 (Ne.symm h2)) hs hn2

/-- C4 fails as stated: with two scanned files and `limit=1` the returned list holds one
record, and with 51 scanned files and no `limit` it holds 50, so it is not a permutation
of the scanned records. -/
theorem catalog_ordering_counterexample :
    (collectFiles srvUploads twoFileFs none).map List.length = some 2 ∧
      (getFiles srvUploads twoFileFs none (some (utf16 "1"))).map
        (fun r => r.files.map FileInfo.savedName) =
          some [utf16 "1704067200500_00ff00ff_b.txt"] ∧
      (collectFiles srvUploads manyFilesFs none).map List.length = some 51 ∧
      (getFiles srvUploads manyFilesFs none none).map
        (fun r => (r.total, r.files.length)) = some (51, 50) := by
  refine ⟨by decide, by decide!, by decide!, by decide!⟩

/-- C4, amended. When the scan collects `fileList`, whatever the shards and the order of
the visit, the sorted list of the handler is a permutation of the scanned records with
times non-increasing, `total` is their number, and the returned `files` is a prefix of
that list: all of it exactly when the limit, a non-negative integer (50 by default), is
at least the number of records.
Records with pairwise different times are returned in strictly decreasing time order, and
the times of the sorted list do not depend on the order of the visit. -/
theorem catalog_ordering (uploadDir : List Str) (fs : FsNode) (date limit : Option Str)
    (fileList : List FileInfo) (hscan : collectFiles uploadDir fs date = some fileList) :
    ∃ resp, getFiles uploadDir fs date limit = some resp ∧
      resp.total = fileList.length ∧
      (sortByTime fileList).Perm fileList ∧
      List.Sorted (fun a b => b.time ≤ a.time) (sortByTime fileList) ∧
      resp.files <+: sortByTime fileList ∧
      (∀ n : Nat, parseInt (limit.getD (toDecimal 50)) = some (n : Int) →
        fileList.length ≤ n → resp.files = sortByTime fileList) ∧
      (limit = none → fileList.length ≤ 50 → resp.files.Perm fileList) ∧
      ((fileList.map FileInfo.time).Nodup →
        List.Sorted (fun a b => b.time < a.time) resp.files) ∧
      (∀ visited : List FileInfo, visited.Perm fileList →
        (sortByTime visited).map FileInfo.time = (sortByTime fileList).map FileInfo.time) ∧
      (∀ n : Nat, parseInt (limit.getD (toDecimal 50)) = some (n : Int) →
        resp.files = sortByTime fileList → fileList.length ≤ n) := by
  refine ⟨_, getFiles_of_collect uploadDir fs date limit fileList hscan, ?_⟩
  simp only
  have hall : ∀ n : Nat, parseInt (limit.getD (toDecimal 50)) = some (n : Int) →
      fileList.length ≤ n →
      slice0 (sortByTime fileList) (parseInt (limit.getD (toDecimal 50))) =
        sortByTime fileList := by
    intro n hn hle
    rw [hn, slice0_natCast]
    exact List.take_of_length_le (by rw [sortByTime_length]; exact hle)
  refine ⟨sortByTime_length _, sortByTime_perm _, sortByTime_sorted _, slice0_initial _ _,
    hall, ?_, ?_, ?_, ?_⟩
  rotate_left 3
  · intro n hn heq
    rw [hn, slice0_natCast] at heq
    have hlen := congrArg List.length heq
    rw [List.length_take, sortByTime_length] at hlen
    omega
  · intro hnone hle
    subst hnone
    rw [hall 50 (by simpa using parseInt_toDecimal 50) hle]
    exact sortByTime_perm _
  · intro hn
    have hstrict : List.Sorted (fun a b => b.time < a.time) (sortByTime fileList) :=
      sorted_strict_of_nodup _ (sortByTime_sorted _)
        (((sortByTime_perm fileList).map FileInfo.time).nodup_iff.2 hn)
    exact List.Pairwise.sublist (slice0_initial _ _).sublist hstrict
  · intro visited hv
    exact sortByTime_map_time_eq visited fileList hv

theorem catalog_ordering_witness :
    collectFiles srvUploads twoFileFs none = some
        [⟨utf16 "report.pdf", utf16 "1704067200000_a1b2c3d4_report.pdf", 2000000,
            [utf16 "2024-01-01", utf16 "1704067200000_a1b2c3d4_report.pdf"], 1704067200000⟩,
          ⟨utf16 "b.txt", utf16 "1704067200500_00ff00ff_b.txt", 7,
            [utf16 "2024-01-01", utf16 "1704067200500_00ff00ff_b.txt"], 1704067200500⟩] ∧
      ∃ resp, getFiles srvUploads twoFileFs none none = some resp ∧ resp.total = 2 :=
  have h : collectFiles srvUploads twoFileFs none = some
      [⟨utf16 "report.pdf", utf16 "1704067200000_a1b2c3d4_report.pdf", 2000000,
          [utf16 "2024-01-01", utf16 "1704067200000_a1b2c3d4_report.pdf"], 1704067200000⟩,
        ⟨utf16 "b.txt", utf16 "1704067200500_00ff00ff_b.txt", 7,
          [utf16 "2024-01-01", utf16 "1704067200500_00ff00ff_b.txt"], 1704067200500⟩] := by
    decide
  ⟨h, (catalog_ordering srvUploads twoFileFs none none _ h).imp fun _ hr => ⟨hr.1, hr.2.1⟩⟩

theorem pagination_after_sort_witness :
    resolve twoShardFs srvUploads = some (.dir twoShardEntries) ∧
      parseInt (utf16 "1") = some ((1 : Nat) : Int) ∧
      (shardRecords srvUploads twoShardEntries).length = 3 ∧
      ∃ resp, getFiles srvUploads twoShardFs none (some (utf16 "1")) = some resp ∧
        resp.total = 3 ∧ resp.returned = 1 ∧
        resp.files.map FileInfo.savedName = [utf16 "1704200000000_0badcafe_late.txt"] :=
  have hlen : (shardRecords srvUploads twoShardEntries).length = 3 := by decide
  have h := (pagination_after_sort srvUploads twoShardFs twoShardEntries (utf16 "1") 1 rfl
    (by decide) (by decide) (by decide) (by rw [hlen]; decide)).1
  ⟨rfl, by decide, hlen,
    match h with
    | ⟨resp, _, hresp, _, _, _, _, hret, htot, _, _⟩ =>
      ⟨resp, hresp, htot.trans hlen, hret, by
        have hev : (getFiles srvUploads twoShardFs none (some (utf16 "1"))).map
            (fun r => r.files.map FileInfo.savedName) =
              some [utf16 "1704200000000_0badcafe_late.txt"] := by decide!
        rw [hresp] at hev
        exact Option.some.inj hev⟩⟩

theorem decode_fallback_witness :
    regexMatch catalogPattern (utf16 "notes.txt") = none ∧
      decodeItem (utf16 "notes.txt") (3407 / 2) = (utf16 "notes.txt", 3407 / 2) :=
  ⟨by decide,
    (decode_fallback srvUploads (.dir [(utf16 "d", .dir mixedDir)]) ⟨[utf16 "d"], false⟩
      mixedDir []
      (utf16 "notes.txt") 10 (3407 / 2) (by rfl) (by simp [mixedDir]) (by decide)).1⟩

/-! ## Stats totals -/

mutual
theorem statsItem_eq : ∀ (node : FsNode) (st : Stats), statsItem node st =
    ⟨st.totalFiles + (regularFileSizes node).length,
      st.totalSize + (regularFileSizes node).sum⟩
  | .file size _, st => by simp [statsItem, regularFileSizes]
  | .dir entries, st => by
    rw [statsItem, regularFileSizes]
    exact statsItems_eq entries st
  | .other, st => by simp [statsItem, regularFileSizes]
theorem statsItems_eq : ∀ (entries : List (Str × FsNode)) (st : Stats),
    statsItems entries st =
      ⟨st.totalFiles + (regularFileSizesOfEntries entries).length,
        st.totalSize + (regularFileSizesOfEntries entries).sum⟩
  | [], st => by simp [statsItems, regularFileSizesOfEntries]
  | (_, node) :: rest, st => by
    rw [statsItems, statsItems_eq rest, statsItem_eq node, regularFileSizesOfEntries]
    simp only [List.length_append, List.sum_append, Stats.mk.injEq]
    omega
end

/-- C9. Stats totals: the stats walk is a total function of the tree; on a storage root
that is a directory it returns `totalFiles` equal to the number of regular files at any
depth of the tree and `totalSize` equal to the sum of their sizes, and on an absent root
it returns 0 and 0. -/
theorem stats_totals (uploadDir : List Str) (fs : FsNode) :
    (resolve fs uploadDir = none → getStats uploadDir fs = some ⟨0, 0⟩) ∧
      ∀ entries, resolve fs uploadDir = some (.dir entries) →
        getStats uploadDir fs = some
          ⟨(regularFileSizes (.dir entries)).length, (regularFileSizes (.dir entries)).sum⟩ := by
  constructor
  · intro h
    unfold getStats; rw [h]
  · intro entries h
    unfold getStats; rw [h]
    simp only [statsItems_eq, regularFileSizes, Nat.zero_add]

theorem stats_totals_witness :
    getStats srvUploads nestedFs = some ⟨3, 47⟩ ∧
      getStats srvUploads (.dir []) = some ⟨0, 0⟩ :=
  ⟨((stats_totals srvUploads nestedFs).2 _ rfl).trans (by decide),
    (stats_totals srvUploads (.dir [])).1 rfl⟩

/-! ## Type filter -/

/-- When the filter rejects: the first entry of `allowTypes` is not `*` and the lowercased
extension is not, as it stands, an entry. With every entry already lowercase this is
absence of the extension up to letter case. -/
theorem fileFilter_lowercase_entries (toLowerCase : Str → Str) (allowTypes : List Str)
    (originalname : Str) (hlow : ∀ t ∈ allowTypes, toLowerCase t = t) :
    fileFilter toLowerCase allowTypes originalname = false ↔
      allowTypes.head? ≠ some (utf16 "*") ∧
        ∀ t ∈ allowTypes, toLowerCase t ≠ toLowerCase (extname originalname) := by
  have hstar : utf16 "*" = [42] := by decide
  rw [hstar]
  have h1 : fileFilter toLowerCase allowTypes originalname = false ↔
      allowTypes.head? ≠ some [42] ∧ toLowerCase (extname originalname) ∉ allowTypes := by
    unfold fileFilter
    by_cases hw : allowTypes.head? = some [42]
    · simp [hw]
    · by_cases hm : toLowerCase (extname originalname) ∈ allowTypes
      · simp [hw, hm]
      · simp [hw, hm]
  rw [h1]
  constructor
  · rintro ⟨hw, hm⟩
    refine ⟨hw, fun t ht e => hm ?_⟩
    rw [hlow t ht] at e
    rw [← e]; exact ht
  · rintro ⟨hw, hm⟩
    exact ⟨hw, fun hmem => hm _ hmem (hlow _ hmem)⟩

/-- C7 at the failing input. With `allowTypes = [".PDF"]` the filter rejects `scan.PDF` and
`scan.pdf`, although their extension is in the list up to letter case: only the file's
extension is lowercased before `includes`. With the entry written `.pdf` the same files
are accepted. -/
theorem type_filter_rejects_listed_extension :
    ([utf16 ".PDF"] : List Str).head? ≠ some (utf16 "*") ∧
      asciiLower (extname (utf16 "scan.PDF")) = asciiLower (utf16 ".PDF") ∧
      fileFilter asciiLower [utf16 ".PDF"] (utf16 "scan.PDF") = false ∧
      asciiLower (extname (utf16 "scan.pdf")) = asciiLower (utf16 ".PDF") ∧
      fileFilter asciiLower [utf16 ".PDF"] (utf16 "scan.pdf") = false ∧
      fileFilter asciiLower [utf16 ".pdf"] (utf16 "scan.PDF") = true ∧
      fileFilter asciiLower [utf16 ".pdf"] (utf16 "scan.pdf") = true := by
  decide

/-! ## Paths supplied by the caller -/

theorem normalizeSegs_extends (acc : List Str) (segs : List Str)
    (h : ∀ s ∈ segs, s ≠ [46, 46]) : acc <+: normalizeSegs acc segs := by
  induction segs generalizing acc with
  | nil => exact List.prefix_refl _
  | cons s rest ih =>
    have hr : ∀ s ∈ rest, s ≠ [46, 46] := fun x hx => h x (List.mem_cons_of_mem _ hx)
    unfold normalizeSegs
    split
    · exact ih acc hr
    · rw [if_neg (h s (by simp))]
      exact (List.prefix_append acc [s]).trans (ih _ hr)

/-- C6 fails as stated: with `..` as the date, the download and delete routes test, send
and unlink `/srv/server.js`, which is outside the storage root `/srv/uploads`, the list
route lists the directory above the root, and a file name holding `../` does the same; no
request is rejected. -/
theorem no_path_traversal_counterexample :
    download srvUploads serverFs (utf16 "..") (utf16 "server.js") =
        ([.existsSync ⟨[utf16 "srv", utf16 "server.js"], false⟩,
          .sendFile ⟨[utf16 "srv", utf16 "server.js"], false⟩],
          .download ⟨[utf16 "srv", utf16 "server.js"], false⟩ (utf16 "server.js")) ∧
      deleteFile srvUploads serverFs (utf16 "..") (utf16 "server.js") =
        ([.existsSync ⟨[utf16 "srv", utf16 "server.js"], false⟩,
          .unlinkSync ⟨[utf16 "srv", utf16 "server.js"], false⟩], .deleted) ∧
      download srvUploads serverFs (utf16 "2024-01-01") (utf16 "../../server.js") =
        ([.existsSync ⟨[utf16 "srv", utf16 "server.js"], false⟩,
          .sendFile ⟨[utf16 "srv", utf16 "server.js"], false⟩],
          .download ⟨[utf16 "srv", utf16 "server.js"], false⟩ (utf16 "../../server.js")) ∧
      getFilesCalls srvUploads serverFs (some (utf16 "..")) =
        [.existsSync ⟨[utf16 "srv"], false⟩, .readdirSync ⟨[utf16 "srv"], false⟩,
          .statSync ⟨[utf16 "srv", utf16 "server.js"], false⟩,
          .statSync ⟨[utf16 "srv", utf16 "uploads"], false⟩] ∧
      (getFiles srvUploads serverFs (some (utf16 "..")) none).map
        (fun r => r.files.map FileInfo.path) = some [[utf16 "..", utf16 "server.js"]] ∧
      ¬ srvUploads <+: [utf16 "srv", utf16 "server.js"] ∧ ¬ srvUploads <+: [utf16 "srv"] := by
  refine ⟨by decide, by decide, by decide, by decide, by decide!, by decide, by decide⟩

/-- C6, amended. The download, delete and one-shard list handlers do not validate the
components the caller supplies: each joins them onto the storage root with `path.join` and
starts with `existsSync` on the joined path (no request is rejected before the file system
is touched). The download and delete handlers make every file-system call on the joined
path; the list handler, given a non-empty `date`, calls `existsSync` and `readdirSync` on
it and `statSync` on `path.join` of it with each name listed there, and returns the
records of the regular files of that directory. When no component holds `/` and none is
`..`, the joined path stays under the storage root. -/
theorem no_path_validation (uploadDir : List Str) (fs : FsNode) (date filename : Str) :
    (download uploadDir fs date filename).1.head? =
        some (.existsSync (pathJoin uploadDir [date, filename])) ∧
      (∀ op ∈ (download uploadDir fs date filename).1,
        op.path = pathJoin uploadDir [date, filename]) ∧
      (deleteFile uploadDir fs date filename).1.head? =
        some (.existsSync (pathJoin uploadDir [date, filename])) ∧
      (∀ op ∈ (deleteFile uploadDir fs date filename).1,
        op.path = pathJoin uploadDir [date, filename]) ∧
      (date ≠ [] →
        (getFilesCalls uploadDir fs (some date)).head? =
            some (.existsSync (pathJoin uploadDir [date])) ∧
          (∀ op ∈ getFilesCalls uploadDir fs (some date),
            op.path = pathJoin uploadDir [date] ∨
              ∃ entries item, lookup fs (pathJoin uploadDir [date]) = some (.dir entries) ∧
                item ∈ entries.map Prod.fst ∧
                op = .statSync (pathJoin (pathJoin uploadDir [date]).segs [item])) ∧
          collectFiles uploadDir fs (some date) =
            scanDir uploadDir fs (pathJoin uploadDir [date]) [] ∧
          ∀ entries, lookup fs (pathJoin uploadDir [date]) = some (.dir entries) →
            collectFiles uploadDir fs (some date) =
              some (entries.filterMap (itemRecord uploadDir (pathJoin uploadDir [date]).segs))) ∧
      (47 ∉ date → date ≠ utf16 ".." → 47 ∉ filename → filename ≠ utf16 ".." →
        uploadDir <+: (pathJoin uploadDir [date, filename]).segs ∧
          uploadDir <+: (pathJoin uploadDir [date]).segs) := by
  refine ⟨?_, ?_, ?_, ?_, ?_, ?_⟩
  · unfold download
    simp only
    split <;> rfl
  · unfold download
    simp only
    split <;> simp [FsOp.path]
  · unfold deleteFile
    simp only
    split <;> rfl
  · unfold deleteFile
    simp only
    split <;> simp [FsOp.path]
  · intro hd
    obtain ⟨c, d, rfl⟩ := List.exists_cons_of_ne_nil hd
    have hcalls : getFilesCalls uploadDir fs (some (c :: d)) =
        scanDirCalls fs (pathJoin uploadDir [c :: d]) := rfl
    rw [hcalls]
    refine ⟨?_, ?_, rfl, ?_⟩
    · unfold scanDirCalls
      split <;> rfl
    · intro op hop
      unfold scanDirCalls at hop
      split at hop
      · simp only [List.mem_singleton] at hop
        subst hop
        exact Or.inl rfl
      · rename_i entries hl
        rcases List.mem_cons.1 hop with h | hop
        · subst h; exact Or.inl rfl
        rcases List.mem_cons.1 hop with h | hop
        · subst h; exact Or.inl rfl
        obtain ⟨e, he, rfl⟩ := List.mem_map.1 hop
        exact Or.inr ⟨entries, e.1, hl, List.mem_map.2 ⟨e, he, rfl⟩, rfl⟩
      · simp only [List.mem_cons, List.mem_singleton, List.not_mem_nil, or_false] at hop
        rcases hop with h | h <;> subst h <;> exact Or.inl rfl
    intro entries hl
    show scanDir uploadDir fs (pathJoin uploadDir [c :: d]) [] = _
    unfold scanDir
    rw [hl]
    simp only [scanItems_eq, List.nil_append]
  · intro h1 h2 h3 h4
    have hdd : utf16 ".." = [46, 46] := by decide
    rw [hdd] at h2 h4
    unfold pathJoin
    constructor
    · apply normalizeSegs_extends
      intro s hs
      simp only [List.flatMap_cons, List.flatMap_nil, List.append_nil,
        splitOn_of_not_mem 47 date h1, splitOn_of_not_mem 47 filename h3] at hs
      simp only [List.singleton_append, List.mem_cons, List.mem_singleton, List.not_mem_nil,
        or_false] at hs
      rcases hs with rfl | rfl
      · exact h2
      · exact h4
    · apply normalizeSegs_extends
      intro s hs
      simp only [List.flatMap_cons, List.flatMap_nil, List.append_nil,
        splitOn_of_not_mem 47 date h1] at hs
      simp only [List.mem_singleton] at hs
      subst hs
      exact h2

theorem no_path_validation_witness :
    utf16 "2024-01-01" ≠ [] ∧
      (47 : Nat) ∉ utf16 "2024-01-01" ∧ utf16 "2024-01-01" ≠ utf16 ".." ∧
      (47 : Nat) ∉ utf16 "a.txt" ∧ utf16 "a.txt" ≠ utf16 ".." ∧
      (srvUploads <+: (pathJoin srvUploads [utf16 "2024-01-01", utf16 "a.txt"]).segs ∧
        srvUploads <+: (pathJoin srvUploads [utf16 "2024-01-01"]).segs) ∧
      collectFiles srvUploads serverFs (some (utf16 "2024-01-01")) =
        scanDir srvUploads serverFs (pathJoin srvUploads [utf16 "2024-01-01"]) [] ∧
      deleteFile srvUploads serverFs (utf16 "2024-01-01")
          (utf16 "1704067200000_a1b2c3d4_report.pdf/") =
        ([.existsSync ⟨[utf16 "srv", utf16 "uploads", utf16 "2024-01-01",
          utf16 "1704067200000_a1b2c3d4_report.pdf"], true⟩], .notFound) :=
  ⟨by decide, by decide, by decide, by decide, by decide,
    (no_path_validation srvUploads serverFs (utf16 "2024-01-01") (utf16 "a.txt")).2.2.2.2.2
      (by decide) (by decide) (by decide) (by decide),
    ((no_path_validation srvUploads serverFs (utf16 "2024-01-01") (utf16 "a.txt")).2.2.2.2.1
      (by decide)).2.2.1,
    by decide⟩

/-! ## Lemmas: the calendar functions -/

theorem isLeapYear_iff (y : Nat) :
    isLeapYear y = true ↔ y % 4 = 0 ∧ (y % 100 ≠ 0 ∨ y % 400 = 0) := by
  unfold isLeapYear
  split_ifs <;> simp <;> omega

theorem DayFromYear_succ (y : Nat) (hy : 1970 ≤ y) :
    DayFromYear (y + 1) = DayFromYear y + daysInYear y := by
  obtain ⟨k, rfl⟩ : ∃ k, y = 1970 + k := ⟨y - 1970, by omega⟩
  have a1 : 1970 + k + 1 - 1970 = k + 1 := by omega
  have a2 : 1970 + k + 1 - 1969 = k + 2 := by omega
  have a3 : 1970 + k + 1 - 1901 = k + 70 := by omega
  have a4 : 1970 + k + 1 - 1601 = k + 370 := by omega
  have b1 : 1970 + k - 1970 = k := by omega
  have b2 : 1970 + k - 1969 = k + 1 := by omega
  have b3 : 1970 + k - 1901 = k + 69 := by omega
  have b4 : 1970 + k - 1601 = k + 369 := by omega
  have e1 : DayFromYear (1970 + k + 1) =
      365 * (k + 1) + (k + 2) / 4 - (k + 70) / 100 + (k + 370) / 400 := by
    rw [DayFromYear, a1, a2, a3, a4]
  have e2 : DayFromYear (1970 + k) = 365 * k + (k + 1) / 4 - (k + 69) / 100 + (k + 369) / 400 := by
    rw [DayFromYear, b1, b2, b3, b4]
  rw [e1, e2]
  clear e1 e2 a1 a2 a3 a4 b1 b2 b3 b4 hy
  have hb : (k + 69) / 100 ≤ k := by omega
  have hc : (k + 70) / 100 ≤ k + 1 := by omega
  unfold daysInYear
  by_cases h4 : (1970 + k) % 4 = 0
  · have q4 : (k + 2) / 4 = (k + 1) / 4 + 1 := by omega
    by_cases h100 : (1970 + k) % 100 = 0
    · have q100 : (k + 70) / 100 = (k + 69) / 100 + 1 := by omega
      by_cases h400 : (1970 + k) % 400 = 0
      · have q400 : (k + 370) / 400 = (k + 369) / 400 + 1 := by omega
        rw [if_pos ((isLeapYear_iff _).2 ⟨h4, Or.inr h400⟩), q4, q100, q400]
        clear q4 q100 q400 h4 h100 h400
        omega
      · have q400 : (k + 370) / 400 = (k + 369) / 400 := by omega
        rw [if_neg (fun h => by rw [isLeapYear_iff] at h; omega), q4, q100, q400]
        clear q4 q100 q400 h4 h100 h400
        omega
    · have q100 : (k + 70) / 100 = (k + 69) / 100 := by omega
      have q400 : (k + 370) / 400 = (k + 369) / 400 := by omega
      rw [if_pos ((isLeapYear_iff _).2 ⟨h4, Or.inl h100⟩), q4, q100, q400]
      clear q4 q100 q400 h4 h100
      omega
  · have q4 : (k + 2) / 4 = (k + 1) / 4 := by omega
    have q100 : (k + 70) / 100 = (k + 69) / 100 := by omega
    have q400 : (k + 370) / 400 = (k + 369) / 400 := by omega
    rw [if_neg (fun h => by rw [isLeapYear_iff] at h; omega), q4, q100, q400]
    clear q4 q100 q400 h4
    omega

theorem daysInYear_ge (y : Nat) : 365 ≤ daysInYear y ∧ daysInYear y ≤ 366 := by
  unfold daysInYear; split <;> omega

theorem DayFromYear_eq_sum (n : Nat) :
    DayFromYear (1970 + n) = ((List.range n).map fun i => daysInYear (1970 + i)).sum := by
  induction n with
  | zero => decide
  | succ k ih =>
    rw [List.range_succ, List.map_append, List.sum_append, ← ih, ← Nat.add_assoc,
      DayFromYear_succ _ (Nat.le_add_right _ _)]
    simp

theorem yearLoop_spec (d : Nat) : ∀ (fuel y : Nat), 1970 ≤ y → DayFromYear y ≤ d →
    d - DayFromYear y ≤ fuel →
    y ≤ yearLoop d fuel y ∧ DayFromYear (yearLoop d fuel y) ≤ d ∧
      d < DayFromYear (yearLoop d fuel y + 1) := by
  intro fuel
  induction fuel with
  | zero =>
    intro y hy h1 h2
    have hs := DayFromYear_succ y hy
    have hd := (daysInYear_ge y).1
    simp only [yearLoop]
    generalize DayFromYear (y + 1) = b at *
    generalize DayFromYear y = a at *
    generalize daysInYear y = c at *
    omega
  | succ f ih =>
    intro y hy h1 h2
    have hs := DayFromYear_succ y hy
    have hd := (daysInYear_ge y).1
    unfold yearLoop
    split
    · rename_i hle
      have h3 := ih (y + 1) (Nat.le_succ_of_le hy) hle (by
        generalize DayFromYear (y + 1) = b at *
        generalize DayFromYear y = a at *
        generalize daysInYear y = c at *
        omega)
      exact ⟨Nat.le_of_succ_le h3.1, h3.2⟩
    · rename_i hle
      exact ⟨le_refl _, h1, Nat.lt_of_not_le hle⟩

theorem YearFromTime_spec (t : Nat) :
    1970 ≤ YearFromTime t ∧ DayFromYear (YearFromTime t) ≤ Day t ∧
      Day t < DayFromYear (YearFromTime t + 1) := by
  have h0 : DayFromYear 1970 = 0 := by decide
  exact yearLoop_spec (Day t) (Day t) 1970 (le_refl _) (by rw [h0]; exact Nat.zero_le _)
    (by rw [h0]; exact le_refl _)

theorem DayWithinYear_lt (t : Nat) : DayWithinYear t < daysInYear (YearFromTime t) := by
  have h := YearFromTime_spec t
  have hs := DayFromYear_succ (YearFromTime t) h.1
  unfold DayWithinYear
  generalize DayFromYear (YearFromTime t + 1) = b at *
  generalize DayFromYear (YearFromTime t) = a at *
  generalize daysInYear (YearFromTime t) = c at *
  generalize Day t = d at *
  omega

theorem month_cases (d l : Nat) (hd : d < 365 + l) (m : Nat)
    (hm : m = if d < 31 then 0 else if d < 59 + l then 1 else if d < 90 + l then 2
      else if d < 120 + l then 3 else if d < 151 + l then 4 else if d < 181 + l then 5
      else if d < 212 + l then 6 else if d < 243 + l then 7 else if d < 273 + l then 8
      else if d < 304 + l then 9 else if d < 334 + l then 10 else 11) :
    (0 ≤ d ∧ d < 31 ∧ m = 0) ∨
      (31 ≤ d ∧ d < 59 + l ∧ m = 1) ∨
      (59 + l ≤ d ∧ d < 90 + l ∧ m = 2) ∨
      (90 + l ≤ d ∧ d < 120 + l ∧ m = 3) ∨
      (120 + l ≤ d ∧ d < 151 + l ∧ m = 4) ∨
      (151 + l ≤ d ∧ d < 181 + l ∧ m = 5) ∨
      (181 + l ≤ d ∧ d < 212 + l ∧ m = 6) ∨
      (212 + l ≤ d ∧ d < 243 + l ∧ m = 7) ∨
      (243 + l ≤ d ∧ d < 273 + l ∧ m = 8) ∨
      (273 + l ≤ d ∧ d < 304 + l ∧ m = 9) ∨
      (304 + l ≤ d ∧ d < 334 + l ∧ m = 10) ∨
      (334 + l ≤ d ∧ d < 365 + l ∧ m = 11) := by
  by_cases h0 : d < 31
  · rw [if_pos h0] at hm; exact Or.inl ⟨by omega, h0, hm⟩
  rw [if_neg h0] at hm
  refine Or.inr ?_
  by_cases h1 : d < 59 + l
  · rw [if_pos h1] at hm; exact Or.inl ⟨by omega, h1, hm⟩
  rw [if_neg h1] at hm
  refine Or.inr ?_
  by_cases h2 : d < 90 + l
  · rw [if_pos h2] at hm; exact Or.inl ⟨by omega, h2, hm⟩
  rw [if_neg h2] at hm
  refine Or.inr ?_
  by_cases h3 : d < 120 + l
  · rw [if_pos h3] at hm; exact Or.inl ⟨by omega, h3, hm⟩
  rw [if_neg h3] at hm
  refine Or.inr ?_
  by_cases h4 : d < 151 + l
  · rw [if_pos h4] at hm; exact Or.inl ⟨by omega, h4, hm⟩
  rw [if_neg h4] at hm
  refine Or.inr ?_
  by_cases h5 : d < 181 + l
  · rw [if_pos h5] at hm; exact Or.inl ⟨by omega, h5, hm⟩
  rw [if_neg h5] at hm
  refine Or.inr ?_
  by_cases h6 : d < 212 + l
  · rw [if_pos h6] at hm; exact Or.inl ⟨by omega, h6, hm⟩
  rw [if_neg h6] at hm
  refine Or.inr ?_
  by_cases h7 : d < 243 + l
  · rw [if_pos h7] at hm; exact Or.inl ⟨by omega, h7, hm⟩
  rw [if_neg h7] at hm
  refine Or.inr ?_
  by_cases h8 : d < 273 + l
  · rw [if_pos h8] at hm; exact Or.inl ⟨by omega, h8, hm⟩
  rw [if_neg h8] at hm
  refine Or.inr ?_
  by_cases h9 : d < 304 + l
  · rw [if_pos h9] at hm; exact Or.inl ⟨by omega, h9, hm⟩
  rw [if_neg h9] at hm
  refine Or.inr ?_
  by_cases h10 : d < 334 + l
  · rw [if_pos h10] at hm; exact Or.inl ⟨by omega, h10, hm⟩
  rw [if_neg h10] at hm
  refine Or.inr ?_
  exact ⟨by omega, by omega, hm⟩

theorem daysInMonth_sum (y m : Nat) (l : Nat) (hl : l = if isLeapYear y then 1 else 0) :
    m < 12 → ((List.range m).map (daysInMonth y)).sum =
      (match m with
        | 0 => 0 | 1 => 31 | 2 => 59 + l | 3 => 90 + l | 4 => 120 + l | 5 => 151 + l
        | 6 => 181 + l | 7 => 212 + l | 8 => 243 + l | 9 => 273 + l | 10 => 304 + l
        | _ => 334 + l) := by
  intro hm
  subst hl
  interval_cases m <;> simp only [List.range_succ, List.range_zero, List.nil_append,
    List.cons_append, List.map_cons, List.map_nil, List.sum_cons, List.sum_nil, daysInMonth,
    List.append_assoc, List.map_append, List.sum_append] <;>
    first | rfl | (split <;> rfl)

/-- The year, month and day of the month of a time value are the civil date of its day
number. -/
theorem civilDay_of_time (t : Nat) :
    civilDay (YearFromTime t) (MonthFromTime t) (DateFromTime t) = Day t ∧
      MonthFromTime t < 12 ∧ 1 ≤ DateFromTime t ∧
      DateFromTime t ≤ daysInMonth (YearFromTime t) (MonthFromTime t) := by
  have h := YearFromTime_spec t
  have hlt := DayWithinYear_lt t
  have hsum := DayFromYear_eq_sum (YearFromTime t - 1970)
  rw [show 1970 + (YearFromTime t - 1970) = YearFromTime t from Nat.add_sub_cancel' h.1] at hsum
  have hday : Day t = DayFromYear (YearFromTime t) + DayWithinYear t := by
    unfold DayWithinYear
    exact (Nat.add_sub_cancel' h.2.1).symm
  obtain ⟨l, hl⟩ : ∃ l, l = if isLeapYear (YearFromTime t) then 1 else 0 := ⟨_, rfl⟩
  have hl1 : daysInYear (YearFromTime t) = 365 + l := by
    unfold daysInYear; rw [hl]; split <;> rfl
  rw [hl1] at hlt
  have hmc := month_cases (DayWithinYear t) l hlt (MonthFromTime t) (by
    unfold MonthFromTime; rw [hl])
  have hl01 : l ≤ 1 := by rw [hl]; split <;> omega
  have hfeb : (if isLeapYear (YearFromTime t) = true then 29 else 28) = 28 + l := by
    rw [hl]
    split <;> rfl
  unfold civilDay DateFromTime
  simp only [← hl]
  rw [← hsum, hday]
  clear hsum hday hl1 h
  have hms := fun m => daysInMonth_sum (YearFromTime t) m l hl
  generalize DayWithinYear t = d at *
  generalize DayFromYear (YearFromTime t) = a at *
  rcases hmc with h | h | h | h | h | h | h | h | h | h | h | h <;>
    obtain ⟨h1, h2, h3⟩ := h <;>
    rw [h3, hms _ (by omega)] <;>
    simp only [daysInMonth, hfeb] <;> clear hms hl hfeb h3 <;>
    omega

/-! ## Lemmas: the text of a date -/

theorem decimalAux_length (fuel : Nat) : ∀ (n k : Nat) (acc : Str), n < fuel → 0 < k →
    n < 10 ^ k → (decimalAux fuel n acc).length ≤ acc.length + k := by
  induction fuel with
  | zero => intro n k acc h; omega
  | succ f ih =>
    intro n k acc hf hk hn
    unfold decimalAux
    split
    · simp only [List.length_cons]; omega
    · rename_i h10
      obtain ⟨j, rfl⟩ : ∃ j, k = j + 1 := ⟨k - 1, by omega⟩
      have hj : 0 < j := by
        rcases Nat.eq_zero_or_pos j with rfl | h
        · simp at hn; omega
        · exact h
      have hn2 : n / 10 < 10 ^ j := by
        rw [Nat.div_lt_iff_lt_mul (by omega)]
        rw [pow_succ] at hn
        exact hn
      have := ih (n / 10) j ((48 + n % 10) :: acc) (by omega) hj hn2
      simp only [List.length_cons] at this
      omega

theorem toDecimal_length_le (n k : Nat) (hk : 0 < k) (hn : n < 10 ^ k) :
    (toDecimal n).length ≤ k := by
  have := decimalAux_length (n + 1) n k [] (by omega) hk hn
  simpa [toDecimal] using this

theorem padStart_length (w n : Nat) (h : (toDecimal n).length ≤ w) :
    (padStart w n).length = w := by
  simp only [padStart, List.length_append, List.length_replicate]
  omega

theorem padStart_digits (w n : Nat) : ∀ c ∈ padStart w n, isDigit c = true := by
  intro c hc
  simp only [padStart, List.mem_append, List.mem_replicate] at hc
  rcases hc with ⟨_, rfl⟩ | hc
  · decide
  · exact toDecimal_digits n c hc

theorem digitsValue_padStart (w n : Nat) : digitsValue 10 (padStart w n) = n := by
  have hz : ∀ k : Nat, List.foldl (fun a c => 10 * a + (digitValue c).getD 0) 0
      (List.replicate k 48) = 0 := by
    intro k
    induction k with
    | zero => rfl
    | succ j ih =>
      rw [List.replicate_succ, List.foldl_cons]
      exact ih
  have := digitsValue_toDecimal n
  unfold digitsValue at this ⊢
  rw [padStart, List.foldl_append, hz, this]

theorem splitOn_head (sep : Nat) : ∀ (a b : Str), sep ∉ a →
    (splitOn sep (a ++ sep :: b)).headD [] = a := by
  intro a
  induction a with
  | nil => intro b _; simp [splitOn]
  | cons c t ih =>
    intro b h
    have hc : c ≠ sep := fun e => h (by simp [e])
    have ht : sep ∉ t := fun e => h (List.mem_cons_of_mem _ e)
    have := ih b ht
    rw [List.cons_append, splitOn, if_neg hc]
    cases hs : splitOn sep (t ++ sep :: b) with
    | nil => rw [hs] at this; simp at this; subst this; rfl
    | cons seg rest => rw [hs] at this; simp at this; subst this; rfl

theorem dateString_chars (y m d : Nat) :
    ∀ c ∈ dateString y m d, isDigit c = true ∨ c = 45 ∨ c = 43 := by
  intro c h
  simp only [dateString, isoYear, List.mem_append, List.mem_singleton] at h
  rcases h with (((h | h) | h) | h) | h
  · split at h
    · exact Or.inl (padStart_digits _ _ c h)
    · rcases List.mem_cons.1 h with h | h
      · exact Or.inr (Or.inr h)
      · exact Or.inl (padStart_digits _ _ c h)
  · exact Or.inr (Or.inl h)
  · exact Or.inl (padStart_digits _ _ c h)
  · exact Or.inr (Or.inl h)
  · exact Or.inl (padStart_digits _ _ c h)

theorem dateString_not_mem (y m d c : Nat) (h1 : isDigit c = false) (h2 : c ≠ 45)
    (h3 : c ≠ 43) : c ∉ dateString y m d := by
  intro h
  rcases dateString_chars y m d c h with h | h | h
  · rw [h1] at h; cases h
  · exact h2 h
  · exact h3 h

theorem dateString_mem_dash (y m d : Nat) : (45 : Nat) ∈ dateString y m d := by
  simp [dateString]

theorem destination_eq (uploadDir : List Str) (now : Nat) :
    destination uploadDir now = ⟨uploadDir ++
      [dateString (YearFromTime now) (MonthFromTime now + 1) (DateFromTime now)], false⟩ := by
  have e : toISOString now =
      dateString (YearFromTime now) (MonthFromTime now + 1) (DateFromTime now) ++
        84 :: (padStart 2 (now / 3600000 % 24) ++ [58] ++ padStart 2 (now / 60000 % 60) ++
          [58] ++ padStart 2 (now / 1000 % 60) ++ [46] ++ padStart 3 (now % 1000) ++ [90]) := by
    simp [toISOString]
  have hd := dateString_mem_dash (YearFromTime now) (MonthFromTime now + 1) (DateFromTime now)
  unfold destination
  rw [e, splitOn_head 84 _ _ (dateString_not_mem _ _ _ 84 (by decide) (by decide) (by decide))]
  apply pathJoin_single
  · exact dateString_not_mem _ _ _ 47 (by decide) (by decide) (by decide)
  · intro h; rw [h] at hd; cases hd
  · intro h; rw [h] at hd; simp at hd
  · intro h; rw [h] at hd; simp at hd

theorem YearFromTime_congr (s t : Nat) (h : Day s = Day t) :
    YearFromTime s = YearFromTime t ∧ MonthFromTime s = MonthFromTime t ∧
      DateFromTime s = DateFromTime t := by
  have hy : YearFromTime s = YearFromTime t := by unfold YearFromTime; rw [h]
  have hd : DayWithinYear s = DayWithinYear t := by unfold DayWithinYear; rw [h, hy]
  have hm : MonthFromTime s = MonthFromTime t := by unfold MonthFromTime; rw [hd, hy]
  refine ⟨hy, hm, ?_⟩
  unfold DateFromTime
  rw [hd, hy, hm]

theorem DayFromYear_ge (n : Nat) : 2932897 ≤ DayFromYear (10000 + n) := by
  induction n with
  | zero => decide
  | succ k ih =>
    rw [← Nat.add_assoc, DayFromYear_succ _ (by omega)]
    exact Nat.le_add_right_of_le ih

theorem YearFromTime_le (t : Nat) (h : t < 253402300800000) : YearFromTime t ≤ 9999 := by
  have hs := YearFromTime_spec t
  have hd : Day t < 2932897 := by
    unfold Day msPerDay
    omega
  by_contra hc
  have := DayFromYear_ge (YearFromTime t - 10000)
  rw [show 10000 + (YearFromTime t - 10000) = YearFromTime t by omega] at this
  omega

theorem splitOn_append (sep : Nat) : ∀ (a b : Str), sep ∉ a →
    splitOn sep (a ++ sep :: b) = a :: splitOn sep b := by
  intro a
  induction a with
  | nil => intro b _; simp [splitOn]
  | cons c t ih =>
    intro b h
    have hc : c ≠ sep := fun e => h (by simp [e])
    have ht : sep ∉ t := fun e => h (List.mem_cons_of_mem _ e)
    rw [List.cons_append, splitOn, if_neg hc, ih b ht]

theorem dash_not_mem_padStart (w n : Nat) : (45 : Nat) ∉ padStart w n := by
  intro h
  have := padStart_digits w n 45 h
  simp [isDigit] at this

theorem dash_not_mem_isoYear (y : Nat) : (45 : Nat) ∉ isoYear y := by
  unfold isoYear
  split
  · exact dash_not_mem_padStart _ _
  · intro h
    rcases List.mem_cons.1 h with h | h
    · omega
    · exact dash_not_mem_padStart _ _ h

theorem digitsValue_isoYear (y : Nat) : digitsValue 10 (isoYear y) = y := by
  unfold isoYear
  split
  · exact digitsValue_padStart _ _
  · have h := digitsValue_padStart 6 y
    unfold digitsValue at h ⊢
    rw [List.foldl_cons]
    exact h

theorem splitOn_dateString (y m d : Nat) :
    splitOn 45 (dateString y m d) = [isoYear y, padStart 2 m, padStart 2 d] := by
  have e : dateString y m d = isoYear y ++ 45 :: (padStart 2 m ++ 45 :: padStart 2 d) := by
    simp [dateString]
  rw [e, splitOn_append 45 _ _ (dash_not_mem_isoYear y),
    splitOn_append 45 _ _ (dash_not_mem_padStart 2 m),
    splitOn_of_not_mem 45 _ (dash_not_mem_padStart 2 d)]

/-- The text of a date determines the year, the month and the day. -/
theorem dateString_inj (y m d y2 m2 d2 : Nat) (h : dateString y m d = dateString y2 m2 d2) :
    y = y2 ∧ m = m2 ∧ d = d2 := by
  have hs := congrArg (splitOn 45) h
  rw [splitOn_dateString, splitOn_dateString] at hs
  simp only [List.cons.injEq, and_true] at hs
  refine ⟨?_, ?_, ?_⟩
  · have := congrArg (digitsValue 10) hs.1
    rwa [digitsValue_isoYear, digitsValue_isoYear] at this
  · have := congrArg (digitsValue 10) hs.2.1
    rwa [digitsValue_padStart, digitsValue_padStart] at this
  · have := congrArg (digitsValue 10) hs.2.2
    rwa [digitsValue_padStart, digitsValue_padStart] at this

/-! ## Day shards -/

/-- C8 fails as stated: at 2024-01-01T23:30:00Z on a host eight hours ahead of UTC the
local calendar date is 2024-01-02, and the upload goes to the directory `2024-01-01`. -/
theorem day_shard_naming_counterexample :
    destination srvUploads 1704151800000 = ⟨srvUploads ++ [utf16 "2024-01-01"], false⟩ ∧
      localDateString 1704151800000 28800000 = utf16 "2024-01-02" := by
  constructor <;> decide

/-- C8, amended. For every upload instant and every time-zone offset of the host, the
directory the destination function selects under the storage root is named with the
calendar date of the instant in UTC: the name is year, `-`, month, `-`, day of the civil
date whose day number is the number of whole days since the epoch, it does not depend on
the offset, and it is the local date exactly when local time and UTC are on the same
day. Before the year 10000 the name has the form `YYYY-MM-DD`: digit runs of lengths 4, 2 and
2 that read back as the year, the month and the day. -/
theorem day_shard_naming (uploadDir : List Str) (now : Nat) (offset : Int) :
    destination uploadDir now = ⟨uploadDir ++
        [dateString (YearFromTime now) (MonthFromTime now + 1) (DateFromTime now)], false⟩ ∧
      civilDay (YearFromTime now) (MonthFromTime now) (DateFromTime now) = now / 86400000 ∧
      MonthFromTime now + 1 ≤ 12 ∧ 1 ≤ DateFromTime now ∧
      DateFromTime now ≤ daysInMonth (YearFromTime now) (MonthFromTime now) ∧
      (0 ≤ (now : Int) + offset →
        ((now : Int) + offset).toNat / 86400000 = now / 86400000 →
        destination uploadDir now = ⟨uploadDir ++ [localDateString now offset], false⟩) ∧
      (now < 253402300800000 →
        ∃ yyyy mm dd : Str,
          destination uploadDir now =
            ⟨uploadDir ++ [yyyy ++ [45] ++ mm ++ [45] ++ dd], false⟩ ∧
          yyyy.length = 4 ∧ mm.length = 2 ∧ dd.length = 2 ∧
          (∀ c ∈ yyyy ++ mm ++ dd, 48 ≤ c ∧ c ≤ 57) ∧
          digitsValue 10 yyyy = YearFromTime now ∧
          digitsValue 10 mm = MonthFromTime now + 1 ∧
          digitsValue 10 dd = DateFromTime now) ∧
      (0 ≤ (now : Int) + offset →
        destination uploadDir now = ⟨uploadDir ++ [localDateString now offset], false⟩ →
        ((now : Int) + offset).toNat / 86400000 = now / 86400000) := by
  have hc := civilDay_of_time now
  have hdest := destination_eq uploadDir now
  refine ⟨hdest, hc.1, hc.2.1, hc.2.2.1, hc.2.2.2, ?_, ?_, ?_⟩
  rotate_left 2
  · intro _ heq
    rw [hdest] at heq
    have hstr := List.append_cancel_left (FilePath.mk.inj heq).1
    simp only [List.cons.injEq, and_true] at hstr
    unfold localDateString at hstr
    obtain ⟨hy, hm, hd⟩ := dateString_inj _ _ _ _ _ _ hstr
    have hl := civilDay_of_time ((now : Int) + offset).toNat
    have hday : Day ((now : Int) + offset).toNat = Day now := by
      rw [← hl.1, ← hc.1, ← hy, ← hd, show MonthFromTime ((now : Int) + offset).toNat =
        MonthFromTime now by omega]
    exact hday
  · intro _ hday
    have h := YearFromTime_congr ((now : Int) + offset).toNat now hday
    rw [hdest]
    unfold localDateString
    simp only [h.1, h.2.1, h.2.2]
  · intro hlt
    have hy := YearFromTime_le now hlt
    have hd31 : DateFromTime now ≤ 31 := by
      refine le_trans hc.2.2.2 ?_
      unfold daysInMonth
      split <;> first | omega | (split <;> omega)
    refine ⟨padStart 4 (YearFromTime now), padStart 2 (MonthFromTime now + 1),
      padStart 2 (DateFromTime now), ?_, ?_, ?_, ?_, ?_, digitsValue_padStart _ _,
      digitsValue_padStart _ _, digitsValue_padStart _ _⟩
    · rw [hdest, dateString, isoYear, if_pos hy]
    · exact padStart_length _ _ (toDecimal_length_le _ 4 (by omega) (by omega))
    · exact padStart_length _ _ (toDecimal_length_le _ 2 (by omega) (by omega))
    · exact padStart_length _ _ (toDecimal_length_le _ 2 (by omega) (by omega))
    · intro c hcm
      rw [← isDigit_iff]
      simp only [List.mem_append] at hcm
      rcases hcm with (h | h) | h <;> exact padStart_digits _ _ c h

theorem day_shard_naming_witness :
    (0 : Int) ≤ ((1704151800000 : Nat) : Int) + (-18000000) ∧
      (((1704151800000 : Nat) : Int) + (-18000000)).toNat / 86400000 =
        1704151800000 / 86400000 ∧
      destination srvUploads 1704151800000 =
        ⟨srvUploads ++ [localDateString 1704151800000 (-18000000)], false⟩ :=
  ⟨by decide, by decide,
    (day_shard_naming srvUploads 1704151800000 (-18000000)).2.2.2.2.2.1 (by decide)
      (by decide)⟩

end BytePip
